import Mathlib

/-!
# Verification of the RP2040 OOK48/JT4/PI4/Morse DSP core

A shallow embedding, in Lean 4, of the character coding, decoding and timing
logic of the RP2040_OOK48_Headless firmware, together with proofs of the
behavioural properties stated in its specification.

Modelling conventions:
* C `float` values become `ℚ`.  Every float operation appearing in the
  embedded code paths (comparison, addition, subtraction, multiplication,
  division by a nonzero value) is exact, so the rational model is faithful
  up to rounding of intermediate results, which none of the proved
  properties depend on.
* Machine integers become `ℕ` (for unsigned quantities) or `ℤ`
  (for signed ones); wrap-around is written explicitly (`% 2 ^ 32`)
  where the C type could overflow.
* Arrays become `List`s accessed with `List.getD`, or functions.
-/

namespace OOKFW

/-- All valid 4-from-8 codewords, `encode4from8[70]` in `tx.cpp`. -/
def encode4from8 : List Nat :=
  [ 15, 23, 27, 29, 30, 39, 43, 45, 46, 51, 53, 54, 57, 58, 60, 71,
    75, 77, 78, 83, 85, 86, 89, 90, 92, 99, 101, 102, 105, 106, 108, 113,
    114, 116, 120, 135, 139, 141, 142, 147, 149, 150, 153, 154, 156, 163, 165, 166,
    169, 170, 172, 177, 178, 180, 184, 195, 197, 198, 201, 202, 204, 209, 210, 212,
    216, 225, 226, 228, 232, 240 ]

/-- The OOK48 decode lookup table, `decode4from8[256]` in `globals.cpp`. -/
def decode4from8 : List Nat :=
  [ 0, 0, 0, 0, 0, 0, 0, 0, 0, 0, 0, 0, 0, 0, 0, 13,
    0, 0, 0, 0, 0, 0, 0, 32, 0, 0, 0, 33, 0, 34, 35, 0,
    0, 0, 0, 0, 0, 0, 0, 36, 0, 0, 0, 37, 0, 38, 39, 0,
    0, 0, 0, 40, 0, 41, 42, 0, 0, 43, 44, 0, 45, 0, 0, 0,
    0, 0, 0, 0, 0, 0, 0, 46, 0, 0, 0, 47, 0, 48, 49, 0,
    0, 0, 0, 50, 0, 51, 52, 0, 0, 53, 54, 0, 55, 0, 0, 0,
    0, 0, 0, 56, 0, 57, 58, 0, 0, 59, 60, 0, 61, 0, 0, 0,
    0, 62, 63, 0, 64, 0, 0, 0, 65, 0, 0, 0, 0, 0, 0, 0,
    0, 0, 0, 0, 0, 0, 0, 66, 0, 0, 0, 67, 0, 68, 69, 0,
    0, 0, 0, 70, 0, 71, 72, 0, 0, 73, 74, 0, 75, 0, 0, 0,
    0, 0, 0, 76, 0, 77, 78, 0, 0, 79, 80, 0, 81, 0, 0, 0,
    0, 82, 83, 0, 84, 0, 0, 0, 85, 0, 0, 0, 0, 0, 0, 0,
    0, 0, 0, 86, 0, 87, 88, 0, 0, 89, 90, 0, 91, 0, 0, 0,
    0, 92, 93, 0, 94, 0, 0, 0, 95, 0, 0, 0, 0, 0, 0, 0,
    0, 126, 126, 0, 126, 0, 0, 0, 126, 0, 0, 0, 0, 0, 0, 0,
    126, 0, 0, 0, 0, 0, 0, 0, 0, 0, 0, 0, 0, 0, 0, 0 ]

/-- The index into `encode4from8` chosen by the `switch` statement of
`encode` in `tx.cpp`: CR/LF map to 0, printable `0x20..0x5F` to `ch - 31`,
lowercase `0x61..0x7A` to `ch - 63`, everything else to 69. -/
def encodeIndex (c : Nat) : Nat :=
  if c = 13 ∨ c = 10 then 0
  else if 32 ≤ c ∧ c ≤ 95 then c - 31
  else if 97 ≤ c ∧ c ≤ 122 then c - 63
  else 69

/-- One character of `encode` in `tx.cpp`: `symbols[i] = encode4from8[v]`. -/
def encodeChar (c : Nat) : Nat := encode4from8.getD (encodeIndex c) 0

/-- `encode(msg, len, symbols)` in `tx.cpp` maps every message character to
its codeword byte and returns the length unchanged. -/
def encodeMsg (msg : List Nat) : List Nat := msg.map encodeChar

/-! ## OOK48 decoder (`decodeCache` in `rx.cpp`) -/

/-- One step of the descending insertion sort in `decodeCache`
(`while(j >= 0 && sorted[j] < key)` shifts strictly smaller entries right,
so the key lands after the last entry that is `≥` it). -/
def insertDesc (x : ℚ) : List ℚ → List ℚ
  | [] => [x]
  | y :: ys => if y < x then x :: y :: ys else y :: insertDesc x ys

/-- The full insertion sort of `sorted[0..8)` in `decodeCache`,
producing the list in descending order. -/
def sortDesc (l : List ℚ) : List ℚ := l.foldl (fun acc x => insertDesc x acc) []

/-- `decodeCache`'s confidence: sort the first 8 per-slot magnitudes
descending, set `range = sorted[0] - sorted[7]` and return
`(sorted[3] - sorted[4]) / range` when `range > 0`, else `0`. -/
def confidence (t : List ℚ) : ℚ :=
  let s := sortDesc (t.take 8)
  let range := s.getD 0 0 - s.getD 7 0
  if 0 < range then (s.getD 3 0 - s.getD 4 0) / range else 0

/-- One pass of `for(i = 0; i < CACHESIZE; i++) if(temp[i] > largest) ...`:
returns the final `(largest, largestbits[l])` pair.  `largest` starts at 0;
when no entry is strictly positive the C code never assigns
`largestbits[l]` and leaves the stack garbage in place — that garbage cell
is modelled as the deterministic value 0 here. -/
def scanStep (t : List ℚ) (acc : ℚ × Nat) (i : Nat) : ℚ × Nat :=
  if t.getD i 0 > acc.1 then (t.getD i 0, i) else acc

/-- The scan itself: `largest = 0`, then the 8-entry pass. -/
def scanLargest (t : List ℚ) : ℚ × Nat :=
  (List.range 8).foldl (scanStep t) (0, 0)

/-- The four selection rounds of `decodeCache` (`for(l = 0; l < 4; l++)`):
each round records the index of the largest remaining magnitude and zeroes
that entry (`temp[largestbits[l]] = 0`).  Returns the recorded indices in
order. -/
def selectRounds : Nat → List ℚ → List Nat × List ℚ
  | 0, t => ([], t)
  | n + 1, t =>
    let p := scanLargest t
    let r := selectRounds n (t.set p.2 0)
    (p.2 :: r.1, r.2)

/-- The `largestbits[0..4)` array recorded by `decodeCache`. -/
def selectBits (t : List ℚ) : List Nat := (selectRounds 4 t).1

/-- The 4-from-8 byte `dec` rebuilt by
`for(l = 0; l < 4; l++) dec = dec | (0x80 >> largestbits[l]);`. -/
def decByte (t : List ℚ) : Nat :=
  (selectBits t).foldl (fun d i => d ||| (0x80 >>> i)) 0

/-- Result of one `decodeCache` call: the character stored into `decoded`
and whether the `decode4from8` table was consulted to produce it. -/
structure DecodeResult where
  decoded : Nat
  usedTable : Bool
deriving DecidableEq

/-- The tail of `decodeCache` operating on the combined per-slot magnitude
vector `temp[]`: compute the confidence, rebuild the 4-from-8 byte `dec`,
and either emit the reserved `0x7E` (confidence below threshold: the table
is not consulted) or look `dec` up in `decode4from8`. -/
def decodeFromT (thr : ℚ) (t : List ℚ) : DecodeResult :=
  if confidence t < thr then ⟨0x7E, false⟩
  else ⟨decode4from8.getD (decByte t) 0, true⟩

/-- `temp[i] = temp[i] + temp[i+8]` for `i ∈ [0, CACHESIZE)`: the half-rate
combining step of `decodeCache`; only `temp[0..8)` is used afterwards. -/
def combineHalfRate (t : List ℚ) : List ℚ :=
  (List.range 8).map (fun i => t.getD i 0 + t.getD (i + 8) 0)

/-! ### Building `temp[]` from the tone cache -/

/-- `TONE800` in `defines.h`. -/
def rxTone : Nat := 34

/-- `TONETOLERANCE` in `defines.h`. -/
def toneTolerance : Nat := 11

/-- `OOKNUMBEROFBINS` in `defines.h`. -/
def ookNumberOfBins : Nat := 68

/-- The bins `b = rxTone - toneTolerance .. rxTone + toneTolerance - 1`
scanned by `findLargest` and `findBestBin`. -/
def binWindow : List Nat :=
  (List.range (2 * toneTolerance)).map (· + (rxTone - toneTolerance))

/-- Maximum of `f` over a list of indices, with the C idiom
`max = -FLT_MAX; if(v > max) max = v;`: `none` plays the role of
`-FLT_MAX`, which every magnitude exceeds. -/
def foldMax (f : Nat → ℚ) (l : List Nat) : Option ℚ :=
  l.foldl (fun m b =>
    match m with
    | none => some (f b)
    | some v => if f b > v then some (f b) else some v) none

/-- Minimum of `f` over a list of indices (`min = FLT_MAX` idiom). -/
def foldMin (f : Nat → ℚ) (l : List Nat) : Option ℚ :=
  l.foldl (fun m b =>
    match m with
    | none => some (f b)
    | some v => if f b < v then some (f b) else some v) none

/-- `findLargest(timeslot)` in `rx.cpp`: the largest magnitude over the
tone search window for one symbol slot. -/
def findLargest (cache : Nat → Nat → ℚ) (slot : Nat) : ℚ :=
  (foldMax (fun b => cache b slot) binWindow).getD 0

/-- `findBestBin()` in `rx.cpp`: the bin of the search window with the
greatest max-to-min range over the `cacheSize` slots; `topBin`
starts at 0 and is only replaced on a strictly larger range. -/
def findBestBin (cache : Nat → Nat → ℚ) (cacheSize : Nat) : Nat :=
  (binWindow.foldl
    (fun acc b =>
      let mx := (foldMax (fun s => cache b s) (List.range cacheSize)).getD 0
      let mn := (foldMin (fun s => cache b s) (List.range cacheSize)).getD 0
      if mx - mn > acc.1 then (mx - mn, b) else acc) ((0 : ℚ), 0)).2

/-- `findWidebandPower(timeslot)` in `rx.cpp`: sum of all OOK bins for one
symbol slot. -/
def findWidebandPower (cache : Nat → Nat → ℚ) (slot : Nat) : ℚ :=
  (List.range ookNumberOfBins).foldl (fun s b => s + cache b slot) 0

/-- `settings.decodeMode`. -/
inductive DecodeMode | normal | alt | rainscatter
deriving DecidableEq

/-- The per-slot scalar build of `decodeCache`: `temp[i]` for
`i ∈ [0, cacheSize)` according to the decode mode. -/
def buildT (m : DecodeMode) (cache : Nat → Nat → ℚ) (cacheSize : Nat) : List ℚ :=
  match m with
  | .alt =>
    let b := findBestBin cache cacheSize
    (List.range cacheSize).map (fun i => cache b i)
  | .rainscatter => (List.range cacheSize).map (findWidebandPower cache)
  | .normal => (List.range cacheSize).map (findLargest cache)

/-- The whole of `decodeCache` in `rx.cpp`: build `temp[]` from the tone
cache according to the decode mode (`cacheSize` is 16 under half rate,
8 otherwise), combine the two half-rate copies if enabled, then gate on
confidence and decode. -/
def decodeCache (m : DecodeMode) (halfRate : Bool) (thr : ℚ)
    (cache : Nat → Nat → ℚ) : DecodeResult :=
  let cacheSize := if halfRate then 16 else 8
  let t := buildT m cache cacheSize
  let t := if halfRate then combineHalfRate t else t
  decodeFromT thr t

/-- The idealised per-slot magnitude vector produced by keying byte `b`
MSB-first over the 8 slots: slot `i` carries the bit `0x80 >> i` of `b`
(magnitude 1 when the bit is set, 0 when clear). -/
def idealMags (b : Nat) : List ℚ :=
  (List.range 8).map (fun i => if b.testBit (7 - i) then (1 : ℚ) else 0)

/-- Number of set bits among the low 8 bits of a byte. -/
def popCount8 (b : Nat) : Nat := (List.range 8).countP (fun k => b.testBit k)

/-! ## Properties of the insertion sort -/

theorem insertDesc_perm (x : ℚ) (l : List ℚ) : List.Perm (insertDesc x l) (x :: l) := by
  induction l with
  | nil => simp [insertDesc]
  | cons y ys ih =>
    by_cases h : y < x
    · simp [insertDesc, h]
    · simp only [insertDesc, if_neg h]
      exact ((ih.cons y).trans (List.Perm.swap x y ys)).symm.symm

theorem insertDesc_sorted (x : ℚ) (l : List ℚ) (h : l.Sorted (· ≥ ·)) :
    (insertDesc x l).Sorted (· ≥ ·) := by
  induction l with
  | nil => simp [insertDesc]
  | cons y ys ih =>
    rcases List.sorted_cons.1 h with ⟨hy, hys⟩
    by_cases hlt : y < x
    · rw [insertDesc, if_pos hlt]
      refine List.sorted_cons.2 ⟨?_, h⟩
      intro b hb
      rcases List.mem_cons.1 hb with rfl | hb
      · exact le_of_lt hlt
      · exact le_trans (hy b hb) (le_of_lt hlt)
    · rw [insertDesc, if_neg hlt]
      refine List.sorted_cons.2 ⟨?_, ih hys⟩
      intro b hb
      rcases List.mem_cons.1 ((insertDesc_perm x ys).mem_iff.1 hb) with rfl | h1
      · exact not_lt.1 hlt
      · exact hy b h1

theorem foldInsert_perm : ∀ (l acc : List ℚ),
    List.Perm (l.foldl (fun acc x => insertDesc x acc) acc) (l ++ acc)
  | [], acc => by simp
  | y :: ys, acc => by
    simp only [List.foldl_cons, List.cons_append]
    exact (foldInsert_perm ys (insertDesc y acc)).trans
      ((List.Perm.append_left ys (insertDesc_perm y acc)).trans List.perm_middle)

theorem sortDesc_perm (l : List ℚ) : List.Perm (sortDesc l) l := by
  simpa [sortDesc] using foldInsert_perm l []

theorem foldInsert_sorted : ∀ (l acc : List ℚ), acc.Sorted (· ≥ ·) →
    (l.foldl (fun acc x => insertDesc x acc) acc).Sorted (· ≥ ·)
  | [], acc, h => by simpa using h
  | y :: ys, acc, h => by
    simp only [List.foldl_cons]
    exact foldInsert_sorted ys (insertDesc y acc) (insertDesc_sorted y acc h)

theorem sortDesc_sorted (l : List ℚ) : (sortDesc l).Sorted (· ≥ ·) := by
  simpa [sortDesc] using foldInsert_sorted l [] (by simp)

theorem sortDesc_eq_of_perm {l s : List ℚ} (hp : List.Perm l s) (hs : s.Sorted (· ≥ ·)) :
    sortDesc l = s :=
  List.eq_of_perm_of_sorted ((sortDesc_perm l).trans hp) (sortDesc_sorted l) hs

/-! ## Claim C1: OOK48 round trip -/

set_option maxRecDepth 4000

theorem c1_upper_bulk : ∀ ch, ch < 96 → 32 ≤ ch →
    encodeChar ch = encode4from8.getD (ch - 31) 0 ∧
    decode4from8.getD (encode4from8.getD (ch - 31) 0) 0 = ch ∧
    decode4from8.getD (decByte (idealMags (encodeChar ch))) 0 = ch := by decide

theorem c1_lower_bulk : ∀ ch, ch < 123 → 97 ≤ ch →
    encodeChar ch = encode4from8.getD (ch - 63) 0 ∧
    decode4from8.getD (decByte (idealMags (encodeChar ch))) 0 = ch - 32 := by decide

/-- C1 — OOK48 round trip: every printable character `0x20..0x5F` is encoded
by `encode` as `encode4from8[ch - 31]` (and a lowercase letter `0x61..0x7A`
as `encode4from8[ch - 63]`); hard-decision decoding of the keyed byte —
taking its 4 set bit positions (MSB first) as the four largest slot
magnitudes, rebuilding the byte with `dec |= 0x80 >> index` and looking it
up in `decode4from8` — recovers `ch` (the uppercase of `ch` for lowercase
input), and in particular `decode4from8[encode4from8[ch - 31]] = ch`. -/
theorem c1_ook48_round_trip (ch : Nat) :
    (32 ≤ ch → ch ≤ 95 →
      encodeChar ch = encode4from8.getD (ch - 31) 0 ∧
      decode4from8.getD (encode4from8.getD (ch - 31) 0) 0 = ch ∧
      decode4from8.getD (decByte (idealMags (encodeChar ch))) 0 = ch) ∧
    (97 ≤ ch → ch ≤ 122 →
      encodeChar ch = encode4from8.getD (ch - 63) 0 ∧
      decode4from8.getD (decByte (idealMags (encodeChar ch))) 0 = ch - 32) := by
  constructor
  · intro h1 h2
    exact c1_upper_bulk ch (by omega) h1
  · intro h1 h2
    exact c1_lower_bulk ch (by omega) h1

/-- Witness for C1 at `ch = 'A' = 65` and `ch = 'b' = 98`. -/
theorem c1_ook48_round_trip_witness :
    (encodeChar 65 = encode4from8.getD 34 0 ∧
      decode4from8.getD (encode4from8.getD 34 0) 0 = 65 ∧
      decode4from8.getD (decByte (idealMags (encodeChar 65))) 0 = 65) ∧
    (encodeChar 98 = encode4from8.getD 35 0 ∧
      decode4from8.getD (decByte (idealMags (encodeChar 98))) 0 = 66) :=
  ⟨(c1_ook48_round_trip 65).1 (by decide) (by decide),
   (c1_ook48_round_trip 98).2 (by decide) (by decide)⟩

/-! ## Claim C5: weight-4 invariant -/

theorem scanStep_fst_le (t : List ℚ) (acc : ℚ × Nat) (i : Nat) :
    acc.1 ≤ (scanStep t acc i).1 := by
  unfold scanStep
  split
  · exact le_of_lt (by assumption)
  · exact le_refl _

theorem scanFold_fst_le (t : List ℚ) (l : List Nat) :
    ∀ acc : ℚ × Nat, acc.1 ≤ (l.foldl (scanStep t) acc).1 := by
  induction l with
  | nil => intro acc; exact le_refl _
  | cons j l' ih =>
    intro acc
    exact le_trans (scanStep_fst_le t acc j) (ih _)

theorem scanStep_valid (t : List ℚ) (acc : ℚ × Nat) (i : Nat) (hi : i < 8)
    (hacc : 0 < acc.1 → acc.2 < 8 ∧ t.getD acc.2 0 = acc.1) :
    0 < (scanStep t acc i).1 →
      (scanStep t acc i).2 < 8 ∧ t.getD (scanStep t acc i).2 0 = (scanStep t acc i).1 := by
  unfold scanStep
  split
  · intro _; exact ⟨hi, rfl⟩
  · exact hacc

theorem scanFold_valid (t : List ℚ) (l : List Nat) (hl : ∀ i ∈ l, i < 8) :
    ∀ acc : ℚ × Nat, (0 < acc.1 → acc.2 < 8 ∧ t.getD acc.2 0 = acc.1) →
    0 < (l.foldl (scanStep t) acc).1 →
      (l.foldl (scanStep t) acc).2 < 8 ∧
        t.getD (l.foldl (scanStep t) acc).2 0 = (l.foldl (scanStep t) acc).1 := by
  induction l with
  | nil => intro acc hacc; exact hacc
  | cons j l' ih =>
    intro acc hacc
    exact ih (fun i hi => hl i (List.mem_cons_of_mem _ hi)) _
      (scanStep_valid t acc j (hl j (List.mem_cons_self _ _)) hacc)

theorem scanFold_pos (t : List ℚ) (l : List Nat) {i : Nat} (hi : i ∈ l)
    (hpos : 0 < t.getD i 0) :
    ∀ acc : ℚ × Nat, 0 < (l.foldl (scanStep t) acc).1 := by
  induction l with
  | nil => cases hi
  | cons j l' ih =>
    intro acc
    rcases List.mem_cons.1 hi with rfl | hi'
    · refine lt_of_lt_of_le ?_ (scanFold_fst_le t l' _)
      unfold scanStep
      split
      · exact hpos
      · exact lt_of_lt_of_le hpos (not_lt.1 (by assumption))
    · exact ih hi' _

theorem scanLargest_spec (t : List ℚ) {i : Nat} (hi : i < 8) (hpos : 0 < t.getD i 0) :
    (scanLargest t).2 < 8 ∧ t.getD (scanLargest t).2 0 = (scanLargest t).1 ∧
      0 < (scanLargest t).1 := by
  have hp : 0 < (scanLargest t).1 :=
    scanFold_pos t (List.range 8) (List.mem_range.2 hi) hpos (0, 0)
  have hv := scanFold_valid t (List.range 8) (fun i hi => List.mem_range.1 hi)
    (0, 0) (fun h => absurd h (by norm_num)) hp
  exact ⟨hv.1, hv.2, hp⟩

/-- The set of slot indices carrying a strictly positive magnitude. -/
def posSet (t : List ℚ) : Finset Nat :=
  (Finset.range 8).filter (fun i => 0 < t.getD i 0)

theorem posSet_set_zero (t : List ℚ) (hlen : t.length = 8) {i : Nat} (hi : i < 8) :
    posSet (t.set i 0) = (posSet t).erase i := by
  ext j
  simp only [posSet, Finset.mem_filter, Finset.mem_range, Finset.mem_erase]
  constructor
  · rintro ⟨hj, hpos⟩
    by_cases hij : i = j
    · subst hij
      rw [List.getD_eq_getElem?_getD, List.getElem?_set_self (by omega)] at hpos
      simp at hpos
    · rw [List.getD_eq_getElem?_getD, List.getElem?_set_ne hij,
        ← List.getD_eq_getElem?_getD] at hpos
      exact ⟨fun h => hij h.symm, hj, hpos⟩
  · rintro ⟨hne, hj, hpos⟩
    refine ⟨hj, ?_⟩
    rw [List.getD_eq_getElem?_getD, List.getElem?_set_ne (fun h => hne h.symm),
      ← List.getD_eq_getElem?_getD]
    exact hpos

theorem scanLargest_mem_posSet (t : List ℚ) (hne : (posSet t).Nonempty) :
    (scanLargest t).2 ∈ posSet t := by
  obtain ⟨i, hi⟩ := hne
  rw [posSet, Finset.mem_filter, Finset.mem_range] at hi
  have h := scanLargest_spec t hi.1 hi.2
  rw [posSet, Finset.mem_filter, Finset.mem_range]
  exact ⟨h.1, h.2.1 ▸ h.2.2⟩

theorem popCount8_or4 : ∀ a b c d : Fin 8,
    a ≠ b ∧ a ≠ c ∧ a ≠ d ∧ b ≠ c ∧ b ≠ d ∧ c ≠ d →
    popCount8 ((((0 ||| (0x80 >>> a.val)) ||| (0x80 >>> b.val)) |||
      (0x80 >>> c.val)) ||| (0x80 >>> d.val)) = 4 := by decide

/-- C5 (counterexample): on the all-zero frame no magnitude is strictly
positive, no selection round ever assigns `largestbits[l]` (the C code
reads uninitialised stack cells there, modelled as 0), and the constructed
byte has a single set bit, not four. -/
theorem c5_counterexample : popCount8 (decByte (List.replicate 8 (0 : ℚ))) = 1 := by
  decide

/-- C5 (amended) — weight-4 invariant: every entry of `encode4from8` has
exactly 4 set bits, and the byte `dec` constructed by `decodeCache` has
exactly 4 set bits for every frame in which at least four of the eight
combined slot magnitudes are strictly positive (on more degenerate frames
the C selection loop reads uninitialised `largestbits[]` cells, so no bit
count is guaranteed). -/
theorem c5_weight4 :
    (∀ i, i < 70 → popCount8 (encode4from8.getD i 0) = 4) ∧
    (∀ t : List ℚ, t.length = 8 → 4 ≤ (posSet t).card →
      popCount8 (decByte t) = 4) := by
  constructor
  · decide
  · intro t hlen hcard
    -- round 0
    have hne0 : (posSet t).Nonempty := Finset.card_pos.1 (by omega)
    have h0 : (scanLargest t).2 ∈ posSet t := scanLargest_mem_posSet t hne0
    set i0 := (scanLargest t).2 with hi0def
    have h0lt : i0 < 8 := Finset.mem_range.1 (Finset.mem_filter.1 h0).1
    set t1 := t.set i0 0 with ht1def
    have hlen1 : t1.length = 8 := by rw [ht1def, List.length_set]; exact hlen
    have hps1 : posSet t1 = (posSet t).erase i0 := posSet_set_zero t hlen h0lt
    have hcard1 : 3 ≤ (posSet t1).card := by
      rw [hps1, Finset.card_erase_of_mem h0]; omega
    -- round 1
    have hne1 : (posSet t1).Nonempty := Finset.card_pos.1 (by omega)
    have h1 : (scanLargest t1).2 ∈ posSet t1 := scanLargest_mem_posSet t1 hne1
    set i1 := (scanLargest t1).2 with hi1def
    have h1lt : i1 < 8 := Finset.mem_range.1 (Finset.mem_filter.1 h1).1
    set t2 := t1.set i1 0 with ht2def
    have hlen2 : t2.length = 8 := by rw [ht2def, List.length_set]; exact hlen1
    have hps2 : posSet t2 = (posSet t1).erase i1 := posSet_set_zero t1 hlen1 h1lt
    have hcard2 : 2 ≤ (posSet t2).card := by
      rw [hps2, Finset.card_erase_of_mem h1]; omega
    -- round 2
    have hne2 : (posSet t2).Nonempty := Finset.card_pos.1 (by omega)
    have h2 : (scanLargest t2).2 ∈ posSet t2 := scanLargest_mem_posSet t2 hne2
    set i2 := (scanLargest t2).2 with hi2def
    have h2lt : i2 < 8 := Finset.mem_range.1 (Finset.mem_filter.1 h2).1
    set t3 := t2.set i2 0 with ht3def
    have hlen3 : t3.length = 8 := by rw [ht3def, List.length_set]; exact hlen2
    have hps3 : posSet t3 = (posSet t2).erase i2 := posSet_set_zero t2 hlen2 h2lt
    have hcard3 : 1 ≤ (posSet t3).card := by
      rw [hps3, Finset.card_erase_of_mem h2]; omega
    -- round 3
    have hne3 : (posSet t3).Nonempty := Finset.card_pos.1 (by omega)
    have h3 : (scanLargest t3).2 ∈ posSet t3 := scanLargest_mem_posSet t3 hne3
    set i3 := (scanLargest t3).2 with hi3def
    have h3lt : i3 < 8 := Finset.mem_range.1 (Finset.mem_filter.1 h3).1
    -- pairwise distinctness from the erase chain
    have m1 : i1 ∈ (posSet t).erase i0 := hps1 ▸ h1
    have d10 : i1 ≠ i0 := (Finset.mem_erase.1 m1).1
    have m2 : i2 ∈ (posSet t1).erase i1 := hps2 ▸ h2
    have d21 : i2 ≠ i1 := (Finset.mem_erase.1 m2).1
    have m2' : i2 ∈ (posSet t).erase i0 := hps1 ▸ (Finset.mem_erase.1 m2).2
    have d20 : i2 ≠ i0 := (Finset.mem_erase.1 m2').1
    have m3 : i3 ∈ (posSet t2).erase i2 := hps3 ▸ h3
    have d32 : i3 ≠ i2 := (Finset.mem_erase.1 m3).1
    have m3' : i3 ∈ (posSet t1).erase i1 := hps2 ▸ (Finset.mem_erase.1 m3).2
    have d31 : i3 ≠ i1 := (Finset.mem_erase.1 m3').1
    have m3'' : i3 ∈ (posSet t).erase i0 := hps1 ▸ (Finset.mem_erase.1 m3').2
    have d30 : i3 ≠ i0 := (Finset.mem_erase.1 m3'').1
    -- the recorded indices and the rebuilt byte
    have hsel : selectBits t = [i0, i1, i2, i3] := by
      rw [hi0def, hi1def, hi2def, hi3def, ht3def, ht2def, ht1def]
      rfl
    have hdec : decByte t =
        (((0 ||| (0x80 >>> i0)) ||| (0x80 >>> i1)) ||| (0x80 >>> i2)) |||
          (0x80 >>> i3) := by
      rw [decByte, hsel]
      rfl
    rw [hdec]
    exact popCount8_or4 ⟨i0, h0lt⟩ ⟨i1, h1lt⟩ ⟨i2, h2lt⟩ ⟨i3, h3lt⟩
      ⟨Fin.ne_of_val_ne d10.symm, Fin.ne_of_val_ne d20.symm,
       Fin.ne_of_val_ne d30.symm, Fin.ne_of_val_ne d21.symm,
       Fin.ne_of_val_ne d31.symm, Fin.ne_of_val_ne d32.symm⟩

/-- Witness for C5 at `i = 0` and the frame `[4, 3, 2, 1, 0, 0, 0, 0]`. -/
theorem c5_weight4_witness :
    popCount8 (encode4from8.getD 0 0) = 4 ∧
    popCount8 (decByte [(4 : ℚ), 3, 2, 1, 0, 0, 0, 0]) = 4 :=
  ⟨c5_weight4.1 0 (by decide),
   c5_weight4.2 [(4 : ℚ), 3, 2, 1, 0, 0, 0, 0] (by decide) (by decide)⟩

/-! ## Claim C2: confidence gate -/

theorem sorted_ge_replicate (n : Nat) (x : ℚ) :
    (List.replicate n x).Sorted (· ≥ ·) := by
  induction n with
  | zero => simp
  | succ m ih =>
    rw [List.replicate_succ]
    refine List.sorted_cons.2 ⟨?_, ih⟩
    intro b hb
    rw [List.eq_of_mem_replicate hb]

theorem sortDesc_replicate (n : Nat) (x : ℚ) :
    sortDesc (List.replicate n x) = List.replicate n x :=
  sortDesc_eq_of_perm (List.Perm.refl _) (sorted_ge_replicate n x)

theorem confidence_replicate (x : ℚ) : confidence (List.replicate 8 x) = 0 := by
  have h : List.replicate 8 x = [x, x, x, x, x, x, x, x] := rfl
  rw [confidence, List.take_of_length_le (by rw [h]; simp), sortDesc_replicate, h]
  simp

theorem foldl_congr_fun {α β : Type} (step1 step2 : β → α → β) (l : List α)
    (h : ∀ a ∈ l, ∀ b, step1 b a = step2 b a) :
    ∀ b0, l.foldl step1 b0 = l.foldl step2 b0 := by
  induction l with
  | nil => intro b0; rfl
  | cons a l' ih =>
    intro b0
    simp only [List.foldl_cons]
    rw [h a (List.mem_cons_self _ _)]
    exact ih (fun x hx b => h x (List.mem_cons_of_mem _ hx) b) _

theorem foldMax_congr (f g : Nat → ℚ) (l : List Nat) (h : ∀ b ∈ l, f b = g b) :
    foldMax f l = foldMax g l := by
  unfold foldMax
  apply foldl_congr_fun
  intro a ha m
  cases m with
  | none => rw [h a ha]
  | some v => rw [h a ha]

theorem findLargest_const (cache : Nat → Nat → ℚ)
    (hcc : ∀ b i j, cache b i = cache b j) (i : Nat) :
    findLargest cache i = findLargest cache 0 := by
  unfold findLargest
  rw [foldMax_congr (fun b => cache b i) (fun b => cache b 0) binWindow
    (fun b _ => hcc b i 0)]

theorem findWidebandPower_const (cache : Nat → Nat → ℚ)
    (hcc : ∀ b i j, cache b i = cache b j) (i : Nat) :
    findWidebandPower cache i = findWidebandPower cache 0 := by
  unfold findWidebandPower
  exact foldl_congr_fun _ _ _ (fun b _ s => by rw [hcc b i 0]) 0

theorem buildT_const (m : DecodeMode) (cache : Nat → Nat → ℚ) (cs : Nat)
    (hcc : ∀ b i j, cache b i = cache b j) :
    ∃ c, buildT m cache cs = List.replicate cs c := by
  cases m with
  | alt =>
    refine ⟨cache (findBestBin cache cs) 0, ?_⟩
    unfold buildT
    rw [List.map_congr_left (fun i _ => hcc (findBestBin cache cs) i 0)]
    simp [List.eq_replicate_iff]
  | rainscatter =>
    refine ⟨findWidebandPower cache 0, ?_⟩
    unfold buildT
    rw [List.map_congr_left (fun i _ => findWidebandPower_const cache hcc i)]
    simp [List.eq_replicate_iff]
  | normal =>
    refine ⟨findLargest cache 0, ?_⟩
    unfold buildT
    rw [List.map_congr_left (fun i _ => findLargest_const cache hcc i)]
    simp [List.eq_replicate_iff]

theorem getD_replicate_lt {x : ℚ} {n i : Nat} (h : i < n) :
    (List.replicate n x).getD i 0 = x := by
  rw [List.getD_eq_getElem?_getD, List.getElem?_replicate]
  simp [h]

theorem combineHalfRate_replicate (c : ℚ) :
    combineHalfRate (List.replicate 16 c) = List.replicate 8 (c + c) := by
  unfold combineHalfRate
  rw [List.map_congr_left (fun i hi => by
    have h8 : i < 8 := List.mem_range.1 hi
    rw [getD_replicate_lt (show i < 16 by omega),
      getD_replicate_lt (show i + 8 < 16 by omega)])]
  simp [List.eq_replicate_iff]

/-- C2 — confidence gate: for every combined magnitude vector `temp[]`,
whenever the confidence is below the configured threshold `decodeCache`
stores the reserved codepoint `0x7E` without consulting `decode4from8`;
and on any frame whose tone-cache columns are identical across the eight
slots (all eight slot magnitudes equal), the confidence is 0 and the
decoder emits `0x7E` under every decode mode and half-rate setting
(the threshold, default 0.180, being positive). -/
theorem c2_confidence_gate (thr : ℚ) :
    (∀ t : List ℚ, confidence t < thr →
      decodeFromT thr t = ⟨0x7E, false⟩) ∧
    (0 < thr → ∀ (cache : Nat → Nat → ℚ) (m : DecodeMode) (hr : Bool),
      (∀ b i j, cache b i = cache b j) →
      confidence (if hr then combineHalfRate (buildT m cache 16)
        else buildT m cache 8) = 0 ∧
      decodeCache m hr thr cache = ⟨0x7E, false⟩) := by
  constructor
  · intro t h
    rw [decodeFromT, if_pos h]
  · intro hthr cache m hr hcc
    cases hr with
    | false =>
      obtain ⟨c, hc⟩ := buildT_const m cache 8 hcc
      have hconf : confidence (buildT m cache 8) = 0 := by
        rw [hc, confidence_replicate]
      refine ⟨by simpa using hconf, ?_⟩
      show decodeFromT thr (buildT m cache 8) = _
      rw [decodeFromT, if_pos (by rw [hconf]; exact hthr)]
    | true =>
      obtain ⟨c, hc⟩ := buildT_const m cache 16 hcc
      have hconf : confidence (combineHalfRate (buildT m cache 16)) = 0 := by
        rw [hc, combineHalfRate_replicate, confidence_replicate]
      refine ⟨by simpa using hconf, ?_⟩
      show decodeFromT thr (combineHalfRate (buildT m cache 16)) = _
      rw [decodeFromT, if_pos (by rw [hconf]; exact hthr)]

/-- Witness for C2: the flat frame `temp = [0,…,0]` at the default
threshold 0.180, and the constant cache `cache b i = 5` in normal mode. -/
theorem c2_confidence_gate_witness :
    decodeFromT (18 / 100) (List.replicate 8 (0 : ℚ)) = ⟨0x7E, false⟩ ∧
    confidence (buildT DecodeMode.normal (fun _ _ => (5 : ℚ)) 8) = 0 ∧
    decodeCache DecodeMode.normal false (18 / 100) (fun _ _ => (5 : ℚ)) =
      ⟨0x7E, false⟩ :=
  ⟨(c2_confidence_gate (18 / 100)).1 _ (by rw [confidence_replicate]; norm_num),
   by
    have h := ((c2_confidence_gate (18 / 100)).2 (by norm_num)
      (fun _ _ => (5 : ℚ)) DecodeMode.normal false (fun _ _ _ => rfl)).1
    simpa using h,
   ((c2_confidence_gate (18 / 100)).2 (by norm_num)
      (fun _ _ => (5 : ℚ)) DecodeMode.normal false (fun _ _ _ => rfl)).2⟩

/-! ## Claim C4: half-rate combining invariance

Doubling every magnitude changes neither the descending sort order, nor the
confidence ratio, nor which four slots are selected. -/

theorem getD_double (l : List ℚ) (i : Nat) :
    (l.map (fun y => 2 * y)).getD i 0 = 2 * l.getD i 0 := by
  rw [List.getD_eq_getElem?_getD, List.getD_eq_getElem?_getD, List.getElem?_map]
  cases l[i]? with
  | none => simp
  | some a => simp

theorem insertDesc_double (x : ℚ) (l : List ℚ) :
    insertDesc (2 * x) (l.map (fun y => 2 * y)) =
      (insertDesc x l).map (fun y => 2 * y) := by
  induction l with
  | nil => simp [insertDesc]
  | cons y ys ih =>
    simp only [List.map_cons, insertDesc]
    by_cases h : y < x
    · rw [if_pos (by linarith), if_pos h]
      simp
    · rw [if_neg (by intro hc; exact h (by linarith)), if_neg h]
      simp [ih]

theorem sortDesc_double (l : List ℚ) :
    sortDesc (l.map (fun y => 2 * y)) = (sortDesc l).map (fun y => 2 * y) := by
  suffices hgen : ∀ acc : List ℚ,
      (l.map (fun y => 2 * y)).foldl (fun acc x => insertDesc x acc)
          (acc.map (fun y => 2 * y)) =
        (l.foldl (fun acc x => insertDesc x acc) acc).map (fun y => 2 * y) by
    simpa [sortDesc] using hgen []
  induction l with
  | nil => intro acc; rfl
  | cons y ys ih =>
    intro acc
    simp only [List.map_cons, List.foldl_cons]
    rw [insertDesc_double, ih]

theorem confidence_double (t : List ℚ) :
    confidence (t.map (fun y => 2 * y)) = confidence t := by
  rw [confidence, confidence, ← List.map_take, sortDesc_double]
  simp only [getD_double]
  by_cases h : 0 < (sortDesc (t.take 8)).getD 0 0 - (sortDesc (t.take 8)).getD 7 0
  · rw [if_pos (by linarith), if_pos h]
    rw [show (2 : ℚ) * (sortDesc (t.take 8)).getD 0 0 -
        2 * (sortDesc (t.take 8)).getD 7 0 =
        2 * ((sortDesc (t.take 8)).getD 0 0 - (sortDesc (t.take 8)).getD 7 0) by ring,
      show (2 : ℚ) * (sortDesc (t.take 8)).getD 3 0 -
        2 * (sortDesc (t.take 8)).getD 4 0 =
        2 * ((sortDesc (t.take 8)).getD 3 0 - (sortDesc (t.take 8)).getD 4 0) by ring]
    exact mul_div_mul_left _ _ (by norm_num)
  · rw [if_neg (by intro hc; exact h (by linarith)), if_neg h]

theorem scanFold_double (t : List ℚ) (l : List Nat) :
    ∀ acc : ℚ × Nat,
      l.foldl (scanStep (t.map (fun y => 2 * y))) (2 * acc.1, acc.2) =
        (2 * (l.foldl (scanStep t) acc).1, (l.foldl (scanStep t) acc).2) := by
  induction l with
  | nil => intro acc; rfl
  | cons j l' ih =>
    intro acc
    simp only [List.foldl_cons]
    have hstep : scanStep (t.map (fun y => 2 * y)) (2 * acc.1, acc.2) j =
        (2 * (scanStep t acc j).1, (scanStep t acc j).2) := by
      rw [scanStep, scanStep, getD_double]
      by_cases h : t.getD j 0 > acc.1
      · rw [if_pos (by simpa using (by linarith : 2 * t.getD j 0 > 2 * acc.1)),
          if_pos h]
      · rw [if_neg (by simp only []; intro hc; exact h (by linarith)), if_neg h]
    rw [hstep, ih (scanStep t acc j)]

theorem scanLargest_double (t : List ℚ) :
    scanLargest (t.map (fun y => 2 * y)) =
      (2 * (scanLargest t).1, (scanLargest t).2) := by
  have h := scanFold_double t (List.range 8) (0, 0)
  simpa [scanLargest] using h

theorem set_zero_double (t : List ℚ) (i : Nat) :
    (t.map (fun y => 2 * y)).set i 0 = (t.set i 0).map (fun y => 2 * y) := by
  rw [List.map_set]
  norm_num

theorem selectRounds_double (n : Nat) :
    ∀ t : List ℚ,
      (selectRounds n (t.map (fun y => 2 * y))).1 = (selectRounds n t).1 := by
  induction n with
  | zero => intro t; rfl
  | succ m ih =>
    intro t
    show (scanLargest (t.map (fun y => 2 * y))).2 ::
        (selectRounds m ((t.map (fun y => 2 * y)).set
          (scanLargest (t.map (fun y => 2 * y))).2 0)).1 =
      (scanLargest t).2 :: (selectRounds m (t.set (scanLargest t).2 0)).1
    rw [scanLargest_double, set_zero_double, ih]

theorem decByte_double (t : List ℚ) :
    decByte (t.map (fun y => 2 * y)) = decByte t := by
  rw [decByte, decByte, selectBits, selectBits, selectRounds_double]

theorem decodeFromT_double (thr : ℚ) (t : List ℚ) :
    decodeFromT thr (t.map (fun y => 2 * y)) = decodeFromT thr t := by
  rw [decodeFromT, decodeFromT, confidence_double, decByte_double]

/-- C4 — half-rate combining invariance: `decodeCache` under half rate
replaces `temp[i]` by `temp[i] + temp[i+8]` and decodes only the first 8
entries, so a 16-slot frame made of two identical copies of an 8-slot
vector `v` decodes to exactly the same result as the single-frame decode of
`v` with half rate off, at any threshold. -/
theorem c4_half_rate (thr : ℚ) (v : List ℚ) (hv : v.length = 8) :
    decodeFromT thr (combineHalfRate (v ++ v)) = decodeFromT thr v := by
  obtain ⟨a, b, c, d, e, f, g, h, rfl⟩ :
      ∃ a b c d e f g h : ℚ, v = [a, b, c, d, e, f, g, h] := by
    rcases v with _ | ⟨a, _ | ⟨b, _ | ⟨c, _ | ⟨d, _ | ⟨e, _ | ⟨f, _ |
      ⟨g, _ | ⟨h, _ | ⟨i, tl⟩⟩⟩⟩⟩⟩⟩⟩⟩ <;> simp_all
  have hcomb : combineHalfRate
      ([a, b, c, d, e, f, g, h] ++ [a, b, c, d, e, f, g, h]) =
      [a, b, c, d, e, f, g, h].map (fun y => 2 * y) := by
    show [a + a, b + b, c + c, d + d, e + e, f + f, g + g, h + h] = _
    simp [two_mul]
  rw [hcomb, decodeFromT_double]

/-- Witness for C4 at `v = [8, 1, 6, 2, 5, 3, 7, 4]`, threshold 0.180. -/
theorem c4_half_rate_witness :
    ([(8 : ℚ), 1, 6, 2, 5, 3, 7, 4].length = 8) ∧
    decodeFromT (18 / 100)
        (combineHalfRate ([(8 : ℚ), 1, 6, 2, 5, 3, 7, 4] ++
          [(8 : ℚ), 1, 6, 2, 5, 3, 7, 4])) =
      decodeFromT (18 / 100) [(8 : ℚ), 1, 6, 2, 5, 3, 7, 4] :=
  ⟨rfl, c4_half_rate (18 / 100) [(8 : ℚ), 1, 6, 2, 5, 3, 7, 4] rfl⟩

/-! ## Claim C3: PPS reset parity -/

/-- `enum Modes { RX, TX }` in `globals.h`. -/
inductive Mode | rx | tx
deriving DecidableEq

/-- The `cachePoint` reset performed by `doPPS` in `main.cpp` when the
active app is OOK-like and the radio is in RX mode:
`if ((halfRate == false) || (halfRate & (gpsSec & 0x01))) cachePoint = 0;
else cachePoint = 8;`.  `gpsSec & 0x01` (bit 0 of a two's-complement `int`)
is modelled by `gpsSec % 2` with `Int.emod`, which agrees on every input;
outside OOK-like RX mode `doPPS` leaves `cachePoint` alone. -/
def doPPSCachePoint (isOokLike : Bool) (mode : Mode) (halfRate : Bool)
    (gpsSec : Int) (cachePoint : Nat) : Nat :=
  if isOokLike = true ∧ mode = Mode.rx then
    if halfRate = false ∨ (halfRate = true ∧ gpsSec % 2 = 1) then 0 else 8
  else cachePoint

/-- C3 (counterexample): with half rate on and an odd GPS second
(`gpsSec = 1`), `doPPS` sets `cachePoint` to 0, not to 8 as claimed —
the code's parity is the opposite of the claim's. -/
theorem c3_counterexample :
    doPPSCachePoint true Mode.rx true 1 5 = 0 ∧
    doPPSCachePoint true Mode.rx true 1 5 ≠ 8 := by decide

/-- C3 (amended) — PPS reset parity: whenever `doPPS` runs in OOK48 RX
mode it resets `cachePoint` to 0 when half rate is off, and under half
rate it resets `cachePoint` to 0 on odd GPS seconds (`gpsSec & 1 == 1`)
and to 8 on even seconds, discarding any in-flight partial frame. -/
theorem c3_pps_reset (hr : Bool) (s : Int) (cp : Nat) :
    (hr = false → doPPSCachePoint true Mode.rx hr s cp = 0) ∧
    (hr = true → s % 2 = 1 → doPPSCachePoint true Mode.rx hr s cp = 0) ∧
    (hr = true → s % 2 = 0 → doPPSCachePoint true Mode.rx hr s cp = 8) := by
  refine ⟨fun h => ?_, fun h hodd => ?_, fun h heven => ?_⟩
  · rw [doPPSCachePoint, if_pos ⟨rfl, rfl⟩, if_pos (Or.inl h)]
  · rw [doPPSCachePoint, if_pos ⟨rfl, rfl⟩, if_pos (Or.inr ⟨h, hodd⟩)]
  · rw [doPPSCachePoint, if_pos ⟨rfl, rfl⟩, if_neg ?_]
    rintro (hfalse | ⟨-, hodd⟩)
    · rw [h] at hfalse; cases hfalse
    · rw [heven] at hodd; cases hodd

/-- Witness for C3 at `gpsSec = 3` (odd, reset to 0), `gpsSec = 4` (even,
reset to 8) and with half rate off at `gpsSec = 7`. -/
theorem c3_pps_reset_witness :
    doPPSCachePoint true Mode.rx false 7 3 = 0 ∧
    doPPSCachePoint true Mode.rx true 3 3 = 0 ∧
    doPPSCachePoint true Mode.rx true 4 3 = 8 :=
  ⟨(c3_pps_reset false 7 3).1 rfl,
   (c3_pps_reset true 3 3).2.1 rfl (by decide),
   (c3_pps_reset true 4 3).2.2 rfl (by decide)⟩

/-! ## Claim C6: JT4 sync search and bit extraction -/

/-- The 207-entry JT4 sync vector `JT4syncVector` in `globals.cpp`. -/
def JT4syncVector : List Nat :=
  [ 0, 0, 0, 0, 1, 1, 0, 0, 0, 1, 1, 0, 1, 1, 0, 0,
    1, 0, 1, 0, 0, 0, 0, 0, 0, 0, 1, 1, 0, 0, 0, 0,
    0, 0, 0, 0, 0, 0, 0, 0, 1, 0, 1, 1, 0, 1, 1, 0,
    1, 0, 1, 1, 1, 1, 1, 0, 1, 0, 0, 0, 1, 0, 0, 1,
    0, 0, 1, 1, 1, 1, 1, 0, 0, 0, 1, 0, 1, 0, 0, 0,
    1, 1, 1, 1, 0, 1, 1, 0, 0, 1, 0, 0, 0, 1, 1, 0,
    1, 0, 1, 0, 1, 0, 1, 0, 1, 1, 1, 1, 1, 0, 1, 0,
    1, 0, 1, 1, 0, 1, 0, 1, 0, 1, 1, 1, 0, 0, 1, 0,
    1, 1, 0, 1, 1, 1, 1, 0, 0, 0, 0, 1, 1, 0, 1, 1,
    0, 0, 0, 1, 1, 1, 0, 1, 1, 1, 0, 1, 1, 1, 0, 0,
    1, 0, 0, 0, 1, 1, 0, 1, 1, 0, 0, 1, 0, 0, 0, 1,
    1, 1, 1, 1, 1, 0, 0, 1, 1, 0, 0, 0, 0, 1, 1, 0,
    0, 0, 1, 0, 1, 1, 0, 1, 1, 1, 1, 0, 1, 0, 1 ]

/-- `overlap` in `globals.cpp` (initialised to 1). -/
def overlap : Nat := 1

/-- `JT4CACHESIZE` in `defines.h`. -/
def JT4cacheSize : Nat := 240

/-- `JT4SYMBOLCOUNT` in `defines.h`. -/
def JT4symbolCount : Nat := 207

/-- `JT4BITCOUNT` in `defines.h`. -/
def JT4bitCount : Nat := 206

/-- The inner loop of `JT4findSync`: the number of positions `s` where the
sync vector differs from bit 0 of `BeaconToneCache[i + s * overlap]`. -/
def JT4errCount (cache : Nat → Nat) (i : Nat) : Nat :=
  (List.range JT4symbolCount).countP
    (fun s => JT4syncVector.getD s 0 != cache (i + s * overlap) % 2)

/-- `JT4findSync` in the JT4 decoder: scan every starting index
`i < cacheSize - symbolCount * overlap`, keep the first index whose
mismatch count is strictly below the best so far (`bestErrorCount`
starts at 255). -/
def JT4findSync (cache : Nat → Nat) : Nat :=
  ((List.range (JT4cacheSize - JT4symbolCount * overlap)).foldl
    (fun acc i =>
       if JT4errCount cache i < acc.1 then (JT4errCount cache i, i) else acc)
    (255, 0)).2

/-- `JT4extractBits`: `bits[i] = BeaconToneCache[bestStartIndex + i*overlap
+ overlap] >> 1` for `i < bitCount` (the symbol at `bestStartIndex` itself
is skipped). -/
def JT4extractBits (cache : Nat → Nat) (bestStartIndex : Nat) : List Nat :=
  (List.range JT4bitCount).map
    (fun i => cache (bestStartIndex + i * overlap + overlap) / 2)

/-- The first-minimum property of the `bestErrorCount` fold. -/
theorem argminFold_spec (f : Nat → Nat) (hf : ∀ i, f i ≤ 207) :
    ∀ n, 1 ≤ n →
      (((List.range n).foldl
          (fun acc i => if f i < acc.1 then (f i, i) else acc) (255, 0)).1 =
        f (((List.range n).foldl
          (fun acc i => if f i < acc.1 then (f i, i) else acc) (255, 0)).2)) ∧
      (((List.range n).foldl
          (fun acc i => if f i < acc.1 then (f i, i) else acc) (255, 0)).2 < n) ∧
      (∀ i, i < n →
        f (((List.range n).foldl
          (fun acc i => if f i < acc.1 then (f i, i) else acc) (255, 0)).2) ≤ f i) ∧
      (∀ i, i < n →
        f i = f (((List.range n).foldl
          (fun acc i => if f i < acc.1 then (f i, i) else acc) (255, 0)).2) →
        ((List.range n).foldl
          (fun acc i => if f i < acc.1 then (f i, i) else acc) (255, 0)).2 ≤ i) := by
  intro n
  induction n with
  | zero => omega
  | succ m ih =>
    intro _
    by_cases hm : 1 ≤ m
    · obtain ⟨ih1, ih2, ih3, ih4⟩ := ih hm
      rw [List.range_succ, List.foldl_append] at *
      simp only [List.foldl_cons, List.foldl_nil] at *
      by_cases hlt : f m <
          ((List.range m).foldl
            (fun acc i => if f i < acc.1 then (f i, i) else acc) (255, 0)).1
      · rw [if_pos hlt]
        refine ⟨rfl, by omega, fun i hi => ?_, fun i hi htie => ?_⟩
        · rcases Nat.lt_succ_iff_lt_or_eq.1 hi with hi' | rfl
          · exact le_of_lt (lt_of_lt_of_le (ih1 ▸ hlt) (ih3 i hi'))
          · exact le_refl _
        · rcases Nat.lt_succ_iff_lt_or_eq.1 hi with hi' | rfl
          · exact absurd (lt_of_lt_of_le (ih1 ▸ hlt) (ih3 i hi'))
              (by rw [htie]; exact lt_irrefl _)
          · exact le_refl _
      · rw [if_neg hlt]
        refine ⟨ih1, by omega, fun i hi => ?_, fun i hi htie => ?_⟩
        · rcases Nat.lt_succ_iff_lt_or_eq.1 hi with hi' | rfl
          · exact ih3 i hi'
          · exact ih1 ▸ not_lt.1 hlt
        · rcases Nat.lt_succ_iff_lt_or_eq.1 hi with hi' | rfl
          · exact ih4 i hi' htie
          · omega
    · have hm0 : m = 0 := by omega
      subst hm0
      have hr1 : List.range 1 = [0] := rfl
      rw [hr1]
      simp only [List.foldl_cons, List.foldl_nil]
      rw [if_pos (by have := hf 0; omega)]
      refine ⟨rfl, by omega, fun i hi => ?_, fun i hi _ => by omega⟩
      have hiz : i = 0 := by omega
      rw [hiz]

theorem JT4extractBits_getD (cache : Nat → Nat) (b : Nat) :
    ∀ i, i < 206 →
      (JT4extractBits cache b).getD i 0 = cache (b + (i + 1) * overlap) / 2 := by
  intro i hi
  rw [JT4extractBits, List.getD_eq_getElem?_getD, List.getElem?_map,
    show JT4bitCount = 206 from rfl, List.getElem?_range hi]
  simp only [Option.map_some', Option.getD_some]
  congr 2

set_option maxHeartbeats 1000000 in
/-- C6 — JT4 sync search and bit extraction: `JT4findSync` examines every
starting position `i ∈ [0, cacheSize - symbolCount·overlap) = [0, 33)`,
counts the positions where the sync vector differs from bit 0 of
`BeaconToneCache[i + s·overlap]`, and returns the index with the minimum
mismatch count (the first such index on ties); `JT4extractBits` then
produces `bits[i] = BeaconToneCache[best + (i+1)·overlap] >> 1` for
`i ∈ [0, bitCount)`, skipping the symbol at the start index itself. -/
theorem c6_jt4_sync (cache : Nat → Nat) :
    JT4findSync cache < 33 ∧
    (∀ i, i < 33 →
      JT4errCount cache (JT4findSync cache) ≤ JT4errCount cache i) ∧
    (∀ i, i < 33 →
      JT4errCount cache i = JT4errCount cache (JT4findSync cache) →
      JT4findSync cache ≤ i) ∧
    (∀ i, i < 206 →
      (JT4extractBits cache (JT4findSync cache)).getD i 0 =
        cache (JT4findSync cache + (i + 1) * overlap) / 2) := by
  have hb : ∀ i, JT4errCount cache i ≤ 207 := fun i => by
    rw [JT4errCount]
    exact le_trans (List.countP_le_length _) (by simp [JT4symbolCount])
  have h := argminFold_spec (JT4errCount cache) hb 33 (by norm_num)
  have hdef : JT4findSync cache =
      ((List.range 33).foldl
        (fun acc i =>
          if JT4errCount cache i < acc.1 then (JT4errCount cache i, i) else acc)
        (255, 0)).2 := by
    unfold JT4findSync
    norm_num [JT4cacheSize, JT4symbolCount, overlap]
  refine ⟨?_, ?_, ?_, ?_⟩
  · rw [hdef]; exact h.2.1
  · intro i hi
    rw [hdef]
    exact h.2.2.1 i hi
  · intro i hi htie
    rw [hdef] at htie ⊢
    exact h.2.2.2 i (by omega) htie
  · intro i hi
    exact JT4extractBits_getD cache (JT4findSync cache) i hi

/-- Witness for C6: the constant cache `cache s = 1`. -/
theorem c6_jt4_sync_witness :
    JT4findSync (fun _ => 1) < 33 ∧
    JT4errCount (fun _ => 1) (JT4findSync (fun _ => 1)) ≤
      JT4errCount (fun _ => 1) 5 ∧
    JT4findSync (fun _ => 1) ≤ JT4findSync (fun _ => 1) ∧
    (JT4extractBits (fun _ => 1) (JT4findSync (fun _ => 1))).getD 0 0 =
      (fun _ : Nat => 1) (JT4findSync (fun _ => 1) + (0 + 1) * overlap) / 2 :=
  ⟨(c6_jt4_sync _).1,
   (c6_jt4_sync _).2.1 5 (by norm_num),
   (c6_jt4_sync _).2.2.1 (JT4findSync (fun _ => 1)) (c6_jt4_sync _).1 rfl,
   (c6_jt4_sync _).2.2.2 0 (by norm_num)⟩

/-! ## Claim C10: the leading CR is sent exactly once -/

/-- `LOCTOKEN` in `defines.h`. -/
def locToken : Nat := 0x86

/-- `replaceToken` in `main.cpp`: copy the original message, substituting
the replacement string for each occurrence of the search character. -/
def replaceToken (orig : List Nat) (search : Nat) (rep : List Nat) : List Nat :=
  orig.flatMap (fun c => if c = search then rep else [c])

/-- The transmit-side globals touched by `TxInit`/`TxSymbol`
(`globals.cpp`). -/
structure TxState where
  visualTxMessage : List Nat
  txBuffer : List Nat
  txMessLen : Nat
  txPointer : Nat
  txBitPointer : Nat
  key : Bool
  txCharSent : Nat
  txSent : Bool

/-- `TxInit` in `tx.cpp`: expand the locator token into
`visualTxMessage + 1`, store a CR (13) at `visualTxMessage[0]`, encode the
message into `TxBuffer` (`TxMessLen` is the message length returned by
`encode`), and reset both pointers. -/
def TxInit (template locator : List Nat) (s : TxState) : TxState :=
  let visual := 13 :: replaceToken template locToken locator
  { s with visualTxMessage := visual
           txBuffer := encodeMsg visual
           txMessLen := visual.length
           txPointer := 0
           txBitPointer := 0 }

/-- `TxSymbol` in `tx.cpp`, for `mode == TX`: wrap `TxPointer` back to 1
(not 0) at the end of the message, key the current bit MSB first (or drop
the key and latch the sent character after the 8th bit), and advance the
pointers — the character advance being suppressed on even GPS seconds
under half rate. -/
def TxSymbol (isTx : Bool) (halfRate : Bool) (gpsSec : Int) (s : TxState) :
    TxState :=
  if isTx then
    let s := if s.txPointer = s.txMessLen then
        { s with txPointer := 1, txBitPointer := 0 }
      else s
    let s := if s.txBitPointer = 8 then
        { s with key := false
                 txCharSent := s.visualTxMessage.getD s.txPointer 0
                 txSent :=
                   if halfRate = false ∨ (halfRate = true ∧ gpsSec % 2 = 1)
                   then true else s.txSent }
      else
        { s with key :=
            ((s.txBuffer.getD s.txPointer 0) <<< s.txBitPointer) &&& 0x80 ≠ 0 }
    let s := { s with txBitPointer := s.txBitPointer + 1 }
    if s.txBitPointer > 8 then
      { s with txBitPointer := 0
               txPointer :=
                 if halfRate = false ∨ (halfRate = true ∧ gpsSec % 2 = 1)
                 then s.txPointer + 1 else s.txPointer }
    else s
  else s

/-- C10 — leading CR sent exactly once per transmission: `TxInit` stores a
carriage return (13) at index 0 of the transmit message, the expanded
body from index 1 on, and `TxPointer = 0`; `TxSymbol` wraps
`TxPointer == TxMessLen` back to 1 rather than 0; and once
`TxPointer ∈ [1, TxMessLen]` it stays in `[1, TxMessLen]` (with
`TxMessLen` unchanged), so index 0 — the CR — is keyed only during the
first pass. -/
theorem c10_leading_cr (template locator : List Nat) (s0 : TxState)
    (halfRate : Bool) (gpsSec : Int) (s : TxState) :
    ((TxInit template locator s0).visualTxMessage.getD 0 0 = 13 ∧
     (TxInit template locator s0).visualTxMessage.drop 1 =
       replaceToken template locToken locator ∧
     (TxInit template locator s0).txPointer = 0 ∧
     1 ≤ (TxInit template locator s0).txMessLen) ∧
    (s.txPointer = s.txMessLen →
      (TxSymbol true halfRate gpsSec s).txPointer = 1) ∧
    (1 ≤ s.txPointer → s.txPointer ≤ s.txMessLen →
      1 ≤ (TxSymbol true halfRate gpsSec s).txPointer ∧
      (TxSymbol true halfRate gpsSec s).txPointer ≤ s.txMessLen ∧
      (TxSymbol true halfRate gpsSec s).txMessLen = s.txMessLen) := by
  refine ⟨⟨rfl, rfl, rfl, by simp [TxInit]⟩, ?_, ?_⟩
  · intro hw
    unfold TxSymbol
    rw [if_pos rfl]
    by_cases hb : s.txBitPointer = 8 <;> simp_all <;> split_ifs <;> simp_all
  · intro h1 h2
    unfold TxSymbol
    rw [if_pos rfl]
    by_cases hw : s.txPointer = s.txMessLen <;>
      by_cases hb : s.txBitPointer = 8 <;>
        simp_all <;> split_ifs <;> simp_all <;> omega

/-- Witness for C10: a two-character message state at the wrap point and a
mid-message state. -/
theorem c10_leading_cr_witness :
    (TxSymbol true false 0
        ⟨[13, 65], [15, 23], 2, 2, 0, false, 0, false⟩).txPointer = 1 ∧
    (1 ≤ (TxSymbol true false 0
        ⟨[13, 65], [15, 23], 2, 1, 3, false, 0, false⟩).txPointer ∧
     (TxSymbol true false 0
        ⟨[13, 65], [15, 23], 2, 1, 3, false, 0, false⟩).txPointer ≤ 2 ∧
     (TxSymbol true false 0
        ⟨[13, 65], [15, 23], 2, 1, 3, false, 0, false⟩).txMessLen = 2) :=
  ⟨(c10_leading_cr [] [] ⟨[], [], 0, 0, 0, false, 0, false⟩ false 0
      ⟨[13, 65], [15, 23], 2, 2, 0, false, 0, false⟩).2.1 rfl,
   (c10_leading_cr [] [] ⟨[], [], 0, 0, 0, false, 0, false⟩ false 0
      ⟨[13, 65], [15, 23], 2, 1, 3, false, 0, false⟩).2.2
     (by norm_num) (by norm_num)⟩

/-! ## Claim C7: Fano decoder abort condition

A shallow embedding of `fano()` from `fano.c` (Phil Karn / K1JT), as
included in the firmware.  `unsigned long` is 32 bits on the RP2040, so
the encoder state wraps modulo `2 ^ 32`. -/

/-- The parity lookup table `Partab[256]`. -/
def Partab : List Nat :=
  [ 0, 1, 1, 0, 1, 0, 0, 1, 1, 0, 0, 1, 0, 1, 1, 0,
    1, 0, 0, 1, 0, 1, 1, 0, 0, 1, 1, 0, 1, 0, 0, 1,
    1, 0, 0, 1, 0, 1, 1, 0, 0, 1, 1, 0, 1, 0, 0, 1,
    0, 1, 1, 0, 1, 0, 0, 1, 1, 0, 0, 1, 0, 1, 1, 0,
    1, 0, 0, 1, 0, 1, 1, 0, 0, 1, 1, 0, 1, 0, 0, 1,
    0, 1, 1, 0, 1, 0, 0, 1, 1, 0, 0, 1, 0, 1, 1, 0,
    0, 1, 1, 0, 1, 0, 0, 1, 1, 0, 0, 1, 0, 1, 1, 0,
    1, 0, 0, 1, 0, 1, 1, 0, 0, 1, 1, 0, 1, 0, 0, 1,
    1, 0, 0, 1, 0, 1, 1, 0, 0, 1, 1, 0, 1, 0, 0, 1,
    0, 1, 1, 0, 1, 0, 0, 1, 1, 0, 0, 1, 0, 1, 1, 0,
    0, 1, 1, 0, 1, 0, 0, 1, 1, 0, 0, 1, 0, 1, 1, 0,
    1, 0, 0, 1, 0, 1, 1, 0, 0, 1, 1, 0, 1, 0, 0, 1,
    0, 1, 1, 0, 1, 0, 0, 1, 1, 0, 0, 1, 0, 1, 1, 0,
    1, 0, 0, 1, 0, 1, 1, 0, 0, 1, 1, 0, 1, 0, 0, 1,
    1, 0, 0, 1, 0, 1, 1, 0, 0, 1, 1, 0, 1, 0, 0, 1,
    0, 1, 1, 0, 1, 0, 0, 1, 1, 0, 0, 1, 0, 1, 1, 0 ]

/-- `POLY1`, the first Layland-Lushbaugh polynomial. -/
def POLY1 : Nat := 0xf2d05351

/-- `POLY2`, the second Layland-Lushbaugh polynomial. -/
def POLY2 : Nat := 0xe4613c47

/-- The `ENCODE` macro: the parity of `encstate & POLY1` (via `Partab`)
in bit 1 of the symbol, the parity of `encstate & POLY2` in bit 0. -/
def encodeSym (encstate : Nat) : Nat :=
  let t1 := encstate &&& POLY1
  let t1 := t1 ^^^ (t1 >>> 16)
  let s1 := Partab.getD ((t1 ^^^ (t1 >>> 8)) &&& 0xff) 0
  let t2 := encstate &&& POLY2
  let t2 := t2 ^^^ (t2 >>> 16)
  let s2 := Partab.getD ((t2 ^^^ (t2 >>> 8)) &&& 0xff) 0
  (s1 <<< 1) ||| s2

/-- Row 0 of the branch metric table `mettab[2][256]` in `fano()`. -/
def mettab0 : List Int :=
  [ 5, 5, 5, 5, 5, 5, 5, 5, 5, 5, 5, 5, 5, 5, 5, 5,
    5, 5, 5, 5, 5, 5, 5, 5, 5, 5, 5, 5, 5, 5, 5, 5,
    5, 5, 5, 5, 5, 5, 5, 5, 5, 5, 5, 5, 5, 5, 5, 5,
    5, 5, 5, 5, 5, 5, 5, 5, 5, 5, 5, 5, 5, 5, 5, 5,
    5, 5, 5, 5, 5, 5, 5, 5, 5, 5, 5, 5, 5, 5, 5, 4,
    4, 4, 4, 4, 4, 4, 4, 4, 4, 4, 4, 4, 4, 4, 4, 4,
    4, 4, 4, 4, 3, 3, 3, 3, 3, 3, 3, 3, 3, 2, 2, 2,
    2, 2, 1, 1, 1, 1, 0, 0, -1, -1, -1, -2, -2, -3, -4, -4,
    -5, -6, -7, -7, -8, -9, -10, -11, -12, -12, -13, -14, -15, -16, -17, -17,
    -18, -19, -20, -21, -22, -22, -23, -24, -25, -26, -26, -27, -28, -29, -30, -30,
    -31, -32, -33, -33, -34, -35, -36, -36, -37, -38, -38, -39, -40, -41, -41, -42,
    -43, -43, -44, -45, -45, -46, -47, -47, -48, -49, -49, -50, -51, -51, -52, -53,
    -53, -54, -54, -55, -56, -56, -57, -57, -58, -59, -59, -60, -60, -61, -62, -62,
    -62, -63, -64, -64, -65, -65, -66, -67, -67, -67, -68, -69, -69, -70, -70, -71,
    -72, -72, -72, -72, -73, -74, -75, -75, -75, -77, -76, -76, -78, -78, -80, -81,
    -80, -79, -83, -82, -81, -82, -82, -83, -84, -84, -84, -87, -86, -87, -88, -89 ]

/-- Row 1 of the branch metric table `mettab[2][256]` in `fano()`. -/
def mettab1 : List Int :=
  [ -89, -89, -88, -87, -86, -87, -84, -84, -84, -83, -82, -82, -81, -82, -83, -79,
    -80, -81, -80, -78, -78, -76, -76, -77, -75, -75, -75, -74, -73, -72, -72, -72,
    -72, -71, -70, -70, -69, -69, -68, -67, -67, -67, -66, -65, -65, -64, -64, -63,
    -62, -62, -62, -61, -60, -60, -59, -59, -58, -57, -57, -56, -56, -55, -54, -54,
    -53, -53, -52, -51, -51, -50, -49, -49, -48, -47, -47, -46, -45, -45, -44, -43,
    -43, -42, -41, -41, -40, -39, -38, -38, -37, -36, -36, -35, -34, -33, -33, -32,
    -31, -30, -30, -29, -28, -27, -26, -26, -25, -24, -23, -22, -22, -21, -20, -19,
    -18, -17, -17, -16, -15, -14, -13, -12, -12, -11, -10, -9, -8, -7, -7, -6,
    -5, -4, -4, -3, -2, -2, -1, -1, -1, 0, 0, 1, 1, 1, 1, 2,
    2, 2, 2, 2, 3, 3, 3, 3, 3, 3, 3, 3, 3, 4, 4, 4,
    4, 4, 4, 4, 4, 4, 4, 4, 4, 4, 4, 4, 4, 4, 4, 4,
    4, 4, 5, 5, 5, 5, 5, 5, 5, 5, 5, 5, 5, 5, 5, 5,
    5, 5, 5, 5, 5, 5, 5, 5, 5, 5, 5, 5, 5, 5, 5, 5,
    5, 5, 5, 5, 5, 5, 5, 5, 5, 5, 5, 5, 5, 5, 5, 5,
    5, 5, 5, 5, 5, 5, 5, 5, 5, 5, 5, 5, 5, 5, 5, 5,
    5, 5, 5, 5, 5, 5, 5, 5, 5, 5, 5, 5, 5, 5, 5, 5 ]

/-- `struct node` in `fano.c`. -/
structure FanoNode where
  encstate : Nat
  gamma : Int
  metrics : List Int
  tm0 : Int
  tm1 : Int
  i : Nat

/-- A fresh (`malloc`-ed, i.e. indeterminate) node; the algorithm writes
every field it later reads. -/
def defaultNode : FanoNode := ⟨0, 0, [], 0, 0, 0⟩

/-- `np->metrics[0..4)` computed from a soft symbol pair. -/
def nodeMetrics (s0 s1 : Nat) : List Int :=
  [mettab0.getD s0 0 + mettab0.getD s1 0,
   mettab0.getD s0 0 + mettab1.getD s1 0,
   mettab1.getD s0 0 + mettab0.getD s1 0,
   mettab1.getD s0 0 + mettab1.getD s1 0]

/-- The decoder state between cycles: the node array, the current node
index `np` and the running threshold `t`. -/
structure FanoCfg where
  nodes : List FanoNode
  np : Nat
  t : Int

/-- `while(ngamma >= t + delta) t += delta;`.  With `delta > 0` (the
firmware always passes 60) the fuel `(ngamma - t).toNat + 1` exceeds the
iteration count, so the fuelled recursion computes exactly the C loop. -/
def tightenT (delta : Int) : Nat → Int → Int → Int
  | 0, t, _ => t
  | fuel + 1, t, ngamma =>
    if ngamma ≥ t + delta then tightenT delta fuel (t + delta) ngamma else t

/-- The backward search `for(;;) { ... }` of the Fano loop: if the decoder
cannot back up (at the root, or the previous node is below the threshold)
relax `t` by `delta` and revert to the best branch; otherwise step back and
either take the next-best branch (only at nodes before the tail that have
one left) or keep looking back.  Terminates because `np` strictly
decreases. -/
def backtrack (delta : Int) (tail : Nat) (c : FanoCfg) : FanoCfg :=
  if c.np = 0 ∨ (c.nodes.getD (c.np - 1) defaultNode).gamma < c.t then
    let nd := c.nodes.getD c.np defaultNode
    let nodes :=
      if nd.i ≠ 0 then
        c.nodes.set c.np { nd with i := 0, encstate := nd.encstate ^^^ 1 }
      else c.nodes
    { nodes := nodes, np := c.np, t := c.t - delta }
  else
    let np' := c.np - 1
    let nd := c.nodes.getD np' defaultNode
    if np' < tail ∧ nd.i ≠ 1 then
      { nodes := c.nodes.set np'
          { nd with i := nd.i + 1, encstate := nd.encstate ^^^ 1 },
        np := np', t := c.t }
    else backtrack delta tail { nodes := c.nodes, np := np', t := c.t }
termination_by c.np
decreasing_by
  simp only [not_or] at *
  omega

/-- One cycle of the main loop `for(i=1; i <= maxcycles; i++)`:
look forward; on `ngamma ≥ t` tighten the threshold on a first visit,
move forward (`Sum.inr` is the `break` at the last node), and compute and
sort the new node's branch metrics (only the zero branch inside the
all-zero tail); on `ngamma < t` run the backward search. -/
def fanoStep (delta : Int) (tail lastnode : Nat) (c : FanoCfg) :
    FanoCfg ⊕ FanoCfg :=
  let nd := c.nodes.getD c.np defaultNode
  let ngamma := nd.gamma + (if nd.i = 0 then nd.tm0 else nd.tm1)
  if ngamma ≥ c.t then
    let t' := if nd.gamma < c.t + delta
      then tightenT delta ((ngamma - c.t).toNat + 1) c.t ngamma else c.t
    let next := c.nodes.getD (c.np + 1) defaultNode
    let nodes1 := c.nodes.set (c.np + 1)
      { next with gamma := ngamma, encstate := (nd.encstate <<< 1) % 2 ^ 32 }
    let np1 := c.np + 1
    if np1 = lastnode then
      Sum.inr { nodes := nodes1, np := np1, t := t' }
    else
      let cur := nodes1.getD np1 defaultNode
      let lsym := encodeSym cur.encstate
      let nodes2 :=
        if np1 ≥ tail then
          nodes1.set np1 { cur with tm0 := cur.metrics.getD lsym 0, i := 0 }
        else
          let m0 := cur.metrics.getD lsym 0
          let m1 := cur.metrics.getD (3 ^^^ lsym) 0
          if m0 > m1 then
            nodes1.set np1 { cur with tm0 := m0, tm1 := m1, i := 0 }
          else
            nodes1.set np1
              { cur with
                  tm0 := m1
                  tm1 := m0
                  encstate := cur.encstate + 1
                  i := 0 }
      Sum.inl { nodes := nodes2, np := np1, t := t' }
  else
    Sum.inl (backtrack delta tail c)

/-- The pre-loop initialisation of `fano()`: each node's four branch
metrics from its soft symbol pair, then the root node's sorted
hypotheses. -/
def fanoInit (symbols : List Nat) (nbits : Nat) : FanoCfg :=
  let nodes := (List.range nbits).map (fun k =>
    { defaultNode with
        metrics := nodeMetrics (symbols.getD (2 * k) 0)
          (symbols.getD (2 * k + 1) 0) })
  let lsym := encodeSym 0
  let nd := nodes.getD 0 defaultNode
  let m0 := nd.metrics.getD lsym 0
  let m1 := nd.metrics.getD (3 ^^^ lsym) 0
  let nodes :=
    if m0 > m1 then
      nodes.set 0 { nd with encstate := 0, gamma := 0, tm0 := m0, tm1 := m1, i := 0 }
    else
      nodes.set 0 { nd with encstate := 1, gamma := 0, tm0 := m1, tm1 := m0, i := 0 }
  { nodes := nodes, np := 0, t := 0 }

/-- The cycle loop with its counter: returns the exit value of `i`, the
final configuration, and whether it exited through the `break` at the last
node (in which case the exit value is the breaking cycle). -/
def fanoLoop (delta : Int) (tail lastnode maxcyc : Nat) (i : Nat)
    (c : FanoCfg) : Nat × FanoCfg × Bool :=
  if i > maxcyc then (i, c, false)
  else
    match fanoStep delta tail lastnode c with
    | Sum.inr c' => (i, c', true)
    | Sum.inl c' => fanoLoop delta tail lastnode maxcyc (i + 1) c'
termination_by maxcyc + 1 - i
decreasing_by omega

/-- `fano()` itself: returns the return code (0 success / -1 timeout), the
final path metric `*metric`, the cycle count `*cycles` and the decoded
bytes (`data[k]` is the low byte of `nodes[7 + 8k].encstate`). -/
def fano (symbols : List Nat) (nbits : Nat) (delta : Int) (maxcycles : Nat) :
    Int × Int × Nat × List Nat :=
  let lastnode := nbits - 1
  let tail := nbits - 31
  let maxcyc := maxcycles * nbits
  let r := fanoLoop delta tail lastnode maxcyc 1 (fanoInit symbols nbits)
  let data := (List.range (nbits / 8)).map
    (fun k => (r.2.1.nodes.getD (7 + 8 * k) defaultNode).encstate % 256)
  (if r.1 ≥ maxcyc then -1 else 0,
   (r.2.1.nodes.getD r.2.1.np defaultNode).gamma, r.1 + 1, data)

/-- Specification-side: run `k` cycles none of which break. -/
def fanoRunInl (delta : Int) (tail lastnode : Nat) : Nat → FanoCfg → Option FanoCfg
  | 0, c => some c
  | k + 1, c =>
    match fanoStep delta tail lastnode c with
    | Sum.inl c' => fanoRunInl delta tail lastnode k c'
    | Sum.inr _ => none

/-- Specification-side: starting from `c`, the decoder first reaches the
last node exactly at cycle `k` (cycles counted from 1). -/
def fanoReachesLastAt (delta : Int) (tail lastnode : Nat) (c : FanoCfg)
    (k : Nat) : Prop :=
  1 ≤ k ∧ ∃ c', fanoRunInl delta tail lastnode (k - 1) c = some c' ∧
    ∃ c'', fanoStep delta tail lastnode c' = Sum.inr c''


theorem fanoLoop_lt_iff (delta : Int) (tail lastnode maxcyc : Nat) :
    ∀ fuel i c, maxcyc + 1 - i ≤ fuel →
      ((fanoLoop delta tail lastnode maxcyc i c).1 < maxcyc ↔
        ∃ j, i + j < maxcyc ∧
          ∃ c', fanoRunInl delta tail lastnode j c = some c' ∧
            ∃ c'', fanoStep delta tail lastnode c' = Sum.inr c'') := by
  intro fuel
  induction fuel with
  | zero =>
    intro i c hfuel
    have hi : i > maxcyc := by omega
    rw [fanoLoop, if_pos hi]
    constructor
    · intro h; omega
    · rintro ⟨j, hj, -⟩; omega
  | succ m ih =>
    intro i c hfuel
    by_cases hi : i > maxcyc
    · rw [fanoLoop, if_pos hi]
      constructor
      · intro h; omega
      · rintro ⟨j, hj, -⟩; omega
    · rw [fanoLoop, if_neg hi]
      cases hstep : fanoStep delta tail lastnode c with
      | inr c'' =>
        simp only [hstep]
        constructor
        · intro h
          exact ⟨0, by omega, c, rfl, c'', hstep⟩
        · rintro ⟨j, hj, c', hrun, hbr⟩
          cases j with
          | zero => omega
          | succ j' =>
            rw [fanoRunInl, hstep] at hrun
            cases hrun
      | inl c' =>
        simp only [hstep]
        rw [ih (i + 1) c' (by omega)]
        constructor
        · rintro ⟨j, hj, c2, hrun, hbr⟩
          exact ⟨j + 1, by omega, c2, by rw [fanoRunInl, hstep]; exact hrun, hbr⟩
        · rintro ⟨j, hj, c2, hrun, hbr⟩
          cases j with
          | zero =>
            rw [fanoRunInl] at hrun
            cases hrun
            rcases hbr with ⟨c'', hc''⟩
            rw [hstep] at hc''
            cases hc''
          | succ j' =>
            rw [fanoRunInl, hstep] at hrun
            exact ⟨j', by omega, c2, hrun, hbr⟩

/-- C7 — Fano abort condition: for every input symbol vector the decoder
returns either 0 or -1; it returns 0 exactly when the last node is reached
strictly within the cycle budget `maxcycles * nbits`, and -1 exactly when
that budget is exhausted without reaching the last node strictly within it
(including a break on the very last allowed cycle, which the final
`if (i >= maxcycles)` also reports as a timeout). -/
theorem c7_fano_abort (symbols : List Nat) (nbits : Nat) (delta : Int)
    (maxcycles : Nat) (hdelta : 0 < delta) :
    ((fano symbols nbits delta maxcycles).1 = 0 ∨
      (fano symbols nbits delta maxcycles).1 = -1) ∧
    ((fano symbols nbits delta maxcycles).1 = 0 ↔
      ∃ k, k < maxcycles * nbits ∧
        fanoReachesLastAt delta (nbits - 31) (nbits - 1)
          (fanoInit symbols nbits) k) ∧
    ((fano symbols nbits delta maxcycles).1 = -1 ↔
      ¬ ∃ k, k < maxcycles * nbits ∧
        fanoReachesLastAt delta (nbits - 31) (nbits - 1)
          (fanoInit symbols nbits) k) := by
  have hF : (fano symbols nbits delta maxcycles).1 =
      if (fanoLoop delta (nbits - 31) (nbits - 1) (maxcycles * nbits) 1
        (fanoInit symbols nbits)).1 ≥ maxcycles * nbits then -1 else 0 := rfl
  have key := fanoLoop_lt_iff delta (nbits - 31) (nbits - 1)
    (maxcycles * nbits) (maxcycles * nbits + 1) 1 (fanoInit symbols nbits)
    (by omega)
  have hiff : (fanoLoop delta (nbits - 31) (nbits - 1) (maxcycles * nbits) 1
      (fanoInit symbols nbits)).1 < maxcycles * nbits ↔
      ∃ k, k < maxcycles * nbits ∧
        fanoReachesLastAt delta (nbits - 31) (nbits - 1)
          (fanoInit symbols nbits) k := by
    rw [key]
    constructor
    · rintro ⟨j, hj, c', hrun, hbr⟩
      exact ⟨j + 1, by omega, by omega, c', by simpa using hrun, hbr⟩
    · rintro ⟨k, hk, hk1, c', hrun, hbr⟩
      refine ⟨k - 1, by omega, c', ?_, hbr⟩
      exact hrun
  by_cases hcase : (fanoLoop delta (nbits - 31) (nbits - 1)
      (maxcycles * nbits) 1 (fanoInit symbols nbits)).1 ≥ maxcycles * nbits
  · rw [hF, if_pos hcase]
    have hnot : ¬ ∃ k, k < maxcycles * nbits ∧
        fanoReachesLastAt delta (nbits - 31) (nbits - 1)
          (fanoInit symbols nbits) k := by
      rw [← hiff]; omega
    refine ⟨Or.inr rfl, ⟨fun h => absurd h (by norm_num), fun h => absurd h hnot⟩,
      fun _ => hnot, fun _ => rfl⟩
  · rw [hF, if_neg hcase]
    have hyes := hiff.1 (by omega)
    refine ⟨Or.inl rfl, ⟨fun _ => hyes, fun _ => rfl⟩,
      fun h => absurd h (by norm_num), fun h => absurd hyes h⟩

/-- Witness for C7 at the firmware's JT4 call:
`fano(..., nbits = 104, delta = 60, maxcycles = 20000)` on an all-zero
soft symbol vector. -/
theorem c7_fano_abort_witness :
    (0 : Int) < 60 ∧
    (((fano (List.replicate 208 0) 104 60 20000).1 = 0 ∨
      (fano (List.replicate 208 0) 104 60 20000).1 = -1) ∧
     ((fano (List.replicate 208 0) 104 60 20000).1 = 0 ↔
       ∃ k, k < 20000 * 104 ∧
         fanoReachesLastAt 60 (104 - 31) (104 - 1)
           (fanoInit (List.replicate 208 0) 104) k) ∧
     ((fano (List.replicate 208 0) 104 60 20000).1 = -1 ↔
       ¬ ∃ k, k < 20000 * 104 ∧
         fanoReachesLastAt 60 (104 - 31) (104 - 1)
           (fanoInit (List.replicate 208 0) 104) k)) :=
  ⟨by norm_num, c7_fano_abort (List.replicate 208 0) 104 60 20000 (by norm_num)⟩

/-! ## Morse streaming decoder (`morse_rx.h` / the Morse part of
`globals.cpp`)

The embedding mirrors `MorseRxDecoder` field by field.  The fixed-size
circular buffer `MorsRing` is modelled by its observable behaviour
(`push` appends and evicts the oldest entry when full; `operator[]`
reads relative to the head; `clear` empties), which is exactly what the
head/count index arithmetic of the C template implements. -/

/-- A C `(int)` cast of a float: truncation toward zero. -/
def cTrunc (q : ℚ) : Int := if 0 ≤ q then ⌊q⌋ else -⌊-q⌋

/-- Behavioural model of `MorsRing<T, N>`. -/
structure MorsRing (α : Type) where
  data : List α
  cap : Nat

/-- `push`: write at `(head + cnt) % N`; when full, advance the head. -/
def MorsRing.push {α : Type} (r : MorsRing α) (v : α) : MorsRing α :=
  if r.data.length < r.cap then { r with data := r.data ++ [v] }
  else { r with data := r.data.drop 1 ++ [v] }

/-- `size()`. -/
def MorsRing.size {α : Type} (r : MorsRing α) : Nat := r.data.length

/-- `clear()`. -/
def MorsRing.clear {α : Type} (r : MorsRing α) : MorsRing α :=
  { r with data := [] }

/-- `enum class MorseEvt`. -/
inductive MorseEvt | NONE | CHAR | WORD_SEP | LOCKED | LOST
deriving DecidableEq

/-- `struct MorseEvent` with its default member values. -/
structure MorseEvent where
  kind : MorseEvt := MorseEvt.NONE
  ch : Char := Char.ofNat 0
  wpm : ℚ := 0
deriving DecidableEq

/-- `struct RunEntry` (`state` is the Schmitt bit 0/1, `len` a frame
count; both are nonnegative in every reachable state). -/
structure RunEntry where
  state : Nat
  len : Nat
deriving DecidableEq

/-- `enum class MorseState`. -/
inductive MorseState | ACQUIRE | LOCKED
deriving DecidableEq

/-- The state of `MorseRxDecoder` (configuration and mutable members). -/
structure Morse where
  frameRate : ℚ
  wpmMin : ℚ
  wpmMax : ℚ
  toneBin : Nat
  envFrames : Nat
  peakHold : ℚ
  peakLowFrames : Nat
  p20Hist : List Nat
  p20Ring : MorsRing Nat
  p20Scale : ℚ
  p20Total : Nat
  noiseFloor : ℚ
  noiseFloorMin : ℚ
  schmittState : Nat
  schmittLo : ℚ
  schmittHi : ℚ
  schmittValid : Bool
  schmittFrame : Nat
  curState : Nat
  curLen : Nat
  runBuf : MorsRing RunEntry
  binaryHist : MorsRing Nat
  state : MorseState
  framesSinceAcq : Nat
  lockedWpm : ℚ
  unitEst : ℚ
  unitMin : ℚ
  unitMax : ℚ
  symbol : String
  framesSinceMark : Nat
  events : List MorseEvent

/-- `_ditFrames(wpm) = 1.2f / wpm * _frameRate`. -/
def Morse.ditFrames (d : Morse) (wpm : ℚ) : ℚ := 1.2 / wpm * d.frameRate

/-- `feed()`'s event count: `_evtCount` equals the number of stored
events. -/
def Morse.evtCount (d : Morse) : Nat := d.events.length

/-- `_pushEvent`: store the event only while fewer than
`MAX_EVENTS = 8` have been generated in this `feed` call. -/
def pushEvent (d : Morse) (ev : MorseEvent) : Morse :=
  if d.events.length < 8 then { d with events := d.events ++ [ev] } else d

/-- `event(i)`: a default (`NONE`) event for any index outside
`[0, _evtCount)`. -/
def event (d : Morse) (i : Int) : MorseEvent :=
  if i < 0 ∨ (d.evtCount : Int) ≤ i then {} else d.events.getD i.toNat {}

/-- The Morse pattern table of `morse_rx.cpp` (`MORSE_TABLE`). -/
def morseTable : List (String × Char) :=
  [(".-", 'A'), ("-...", 'B'), ("-.-.", 'C'), ("-..", 'D'),
   (".", 'E'), ("..-.", 'F'), ("--.", 'G'), ("....", 'H'),
   ("..", 'I'), (".---", 'J'), ("-.-", 'K'), (".-..", 'L'),
   ("--", 'M'), ("-.", 'N'), ("---", 'O'), (".--.", 'P'),
   ("--.-", 'Q'), (".-.", 'R'), ("...", 'S'), ("-", 'T'),
   ("..-", 'U'), ("...-", 'V'), (".--", 'W'), ("-..-", 'X'),
   ("-.--", 'Y'), ("--..", 'Z'),
   ("-----", '0'), (".----", '1'), ("..---", '2'), ("...--", '3'),
   ("....-", '4'), (".....", '5'), ("-....", '6'), ("--...", '7'),
   ("---..", '8'), ("----.", '9'),
   (".-.-.-", '.'), ("--..--", ','), ("..--..", '?'), ("-....-", '-'),
   ("-..-..", '/'), (".-.-.", '+'), ("-...-", '=')]

/-- `_morseToChar`: first matching pattern, else `?`. -/
def morseToChar (sym : String) : Char :=
  match morseTable.find? (fun p => p.1 = sym) with
  | some p => p.2
  | none => '?'

/-- `_updatePeak`: asymmetric peak hold with slow decay for the first 120
below-peak frames, fast decay afterwards. -/
def updatePeak (d : Morse) (mag : ℚ) : Morse :=
  if mag ≥ d.peakHold then { d with peakHold := mag, peakLowFrames := 0 }
  else
    let plf := d.peakLowFrames + 1
    let decay : ℚ := if plf > 120 then 0.985 else 0.9995
    { d with peakLowFrames := plf, peakHold := d.peakHold * decay }

/-- The `for (b...)` walk of `_updateP20`: smallest bucket whose
cumulative count reaches the target (`p20bucket` keeps its initial 0 when
the loop completes without a break). -/
def p20walk : List Nat → Nat → Nat → Nat → Nat
  | [], _, _, _ => 0
  | h :: rest, target, cum, b =>
    if cum + h ≥ target then b else p20walk rest target (cum + h) (b + 1)

/-- The opening `if (_p20Scale == 0.0f && mag > 0.0f)` of `_updateP20`:
seed the histogram scale from the first nonzero magnitude. -/
def p20Seed (d : Morse) (mag : ℚ) : Morse :=
  if d.p20Scale = 0 ∧ mag > 0
    then { d with p20Scale := (255 : ℚ) / (mag * 8) } else d

/-- The eviction step of `_updateP20`: when the 128-sample ring is full,
decrement the histogram bin of the sample about to be overwritten. -/
def p20Evict (d : Morse) : Morse :=
  if d.p20Ring.size = 128 then
    let old := d.p20Ring.data.getD 0 0
    { d with
        p20Hist :=
          if d.p20Hist.getD old 0 > 0 then
            d.p20Hist.set old (d.p20Hist.getD old 0 - 1)
          else d.p20Hist
        p20Total := 128 }
  else d

/-- The recording step of `_updateP20`: push the new bucket into the ring,
bump its histogram bin and the (saturating) sample total. -/
def p20Record (d : Morse) (bucket : Nat) : Morse :=
  let d : Morse := { d with
      p20Ring := d.p20Ring.push bucket
      p20Hist := d.p20Hist.set bucket (d.p20Hist.getD bucket 0 + 1) }
  if d.p20Total < 128 then { d with p20Total := d.p20Total + 1 } else d

/-- The percentile walk and noise-floor update at the end of
`_updateP20`. -/
def p20Floor (d : Morse) : Morse :=
  let target := max ((d.p20Total * 20) / 100) 1
  let p20bucket := p20walk d.p20Hist target 0 0
  let shortTerm := (p20bucket : ℚ) / (d.p20Scale + 1e-12)
  let d : Morse := if shortTerm > d.noiseFloorMin
    then { d with noiseFloorMin := d.noiseFloorMin + 0.001 * (shortTerm - d.noiseFloorMin) }
    else d
  { d with noiseFloor := if shortTerm > d.noiseFloorMin then shortTerm else d.noiseFloorMin }

/-- `_updateP20`: the 128-sample sliding histogram noise floor with its
slowly rising minimum (the steps above in the C function's order). -/
def updateP20 (d : Morse) (mag : ℚ) : Morse :=
  let d := p20Seed d mag
  if d.p20Scale ≤ 0 then d
  else
    let bucket := min (cTrunc (mag * d.p20Scale)).toNat 255
    p20Floor (p20Record (p20Evict d) bucket)

/-- `_updateSchmitt`: require 20 envelope frames and 6:1 peak-to-noise,
then set the hysteresis thresholds. -/
def updateSchmitt (d : Morse) : Morse :=
  if d.envFrames < 20 then { d with schmittValid := false }
  else if d.noiseFloor ≤ 0 ∨ d.peakHold / (d.noiseFloor + 1e-9) < 6 then
    { d with schmittValid := false }
  else
    let mid := 0.5 * (d.noiseFloor + d.peakHold)
    let hyst := 0.12 * (d.peakHold - d.noiseFloor)
    { d with schmittLo := mid - hyst, schmittHi := mid + hyst,
             schmittValid := true }

/-- `_schmittStep`: the two-threshold slicer; returns the new state. -/
def schmittStep (d : Morse) (val : ℚ) : Morse × Nat :=
  let st :=
    if d.schmittState = 0 ∧ val ≥ d.schmittHi then 1
    else if d.schmittState = 1 ∧ val ≤ d.schmittLo then 0
    else d.schmittState
  ({ d with schmittState := st }, st)

/-- `_updateRun`: run-length tracking; a completed run is reported when
the sliced bit changes and the previous run was nonempty. -/
def updateRun (d : Morse) (bit : Nat) : Morse × Option RunEntry :=
  if bit = d.curState then ({ d with curLen := d.curLen + 1 }, none)
  else
    let out := if d.curLen > 0 then some (⟨d.curState, d.curLen⟩ : RunEntry) else none
    ({ d with curState := bit, curLen := 1 }, out)

/-- Phase 1 of `_morphFilter`'s `while (i < count)` pass: merge each run
shorter than `minRun` into a neighbour.  `first` records `i == 0`,
`rest = []` corresponds to `i == count - 1`, `outRev` is the `tmp` output
in reverse.  The arms marked unreachable can only fire on inputs the C
code never produces (they would read out of bounds there). -/
def morphPhase1 (minRun count : Nat) :
    Bool → List RunEntry → List RunEntry → Bool → List RunEntry × Bool
  | _, [], outRev, ch => (outRev.reverse, ch)
  | first, r :: rest, outRev, ch =>
    if r.len < minRun ∧ count > 1 then
      match first, rest, outRev with
      | true, r2 :: rest', _ =>
        morphPhase1 minRun count false rest'
          ((⟨r2.state, r.len + r2.len⟩ : RunEntry) :: outRev) true
      | true, [], _ => (outRev.reverse ++ [r], true)        -- unreachable
      | false, [], p :: ps =>
        (((⟨p.state, p.len + r.len⟩ : RunEntry) :: ps).reverse, true)
      | false, [], [] => ([r], true)                        -- unreachable
      | false, r2 :: rest', p :: ps =>
        if p.len ≥ r2.len then
          morphPhase1 minRun count false (r2 :: rest')
            ((⟨p.state, p.len + r.len⟩ : RunEntry) :: ps) true
        else
          morphPhase1 minRun count false rest'
            ((⟨r2.state, r.len + r2.len⟩ : RunEntry) :: outRev) true
      | false, _ :: _, [] => ([], true)                     -- unreachable
    else morphPhase1 minRun count false rest (r :: outRev) ch
termination_by _ l => l.length
decreasing_by all_goals simp_arith [List.length]

/-- Phase 2 of `_morphFilter`: merge adjacent same-state runs
(`merged[]`). -/
def mergeAdjAux : List RunEntry → List RunEntry → List RunEntry
  | out, [] => out.reverse
  | [], t :: ts => mergeAdjAux [t] ts
  | p :: ps, t :: ts =>
    if p.state = t.state then
      mergeAdjAux ((⟨p.state, p.len + t.len⟩ : RunEntry) :: ps) ts
    else mergeAdjAux (t :: p :: ps) ts

/-- One full pass of the `while (changed)` loop of `_morphFilter`. -/
def morphPass (minRun : Nat) (runs : List RunEntry) : List RunEntry × Bool :=
  let r := morphPhase1 minRun runs.length true runs [] false
  (mergeAdjAux [] r.1, r.2)

/-- The `while (changed)` loop itself.  Every changed pass strictly
shrinks the run list, so `length + 1` passes of fuel always suffice. -/
def morphLoop (minRun : Nat) : Nat → List RunEntry → List RunEntry
  | 0, runs => runs
  | fuel + 1, runs =>
    let p := morphPass minRun runs
    if p.2 then morphLoop minRun fuel p.1 else p.1

/-- `_morphFilter`. -/
def morphFilter (runs : List RunEntry) (minRun : Nat) : List RunEntry :=
  if runs.length ≤ 0 ∨ minRun ≤ 1 then runs
  else morphLoop minRun (runs.length + 1) runs

/-- The candidate WPM values visited by
`for (float wpm = _wpmMin; wpm <= _wpmMax + 1e-4f; wpm += 0.5f)`;
the fuel strictly exceeds the iteration count for every configuration
with `wpmMin ≤ wpmMax` (the firmware uses 5..40). -/
def wpmCandidatesAux : Nat → ℚ → ℚ → List ℚ
  | 0, _, _ => []
  | fuel + 1, w, wmax =>
    if w ≤ wmax + 1e-4 then w :: wpmCandidatesAux fuel (w + 0.5) wmax else []

/-- The candidate list for `_estimateWpm`'s scan. -/
def wpmCandidates (wmin wmax : ℚ) : List ℚ :=
  wpmCandidatesAux ((⌈(wmax + 1 - wmin) * 2⌉).toNat + 1) wmin wmax

/-- `_estimateWpm`: weighted-error / histogram-alignment scoring over the
candidate WPM grid; returns `(bestWpm, bestConf)`. -/
def estimateWpm (d : Morse) (runs : List RunEntry) : ℚ × ℚ :=
  let markRuns := (runs.filter (fun r => r.state = 1 ∧ r.len ≥ 2)).map
    (fun r => (r.len : ℚ))
  if markRuns.length = 0 then (d.wpmMin, 0)
  else
    let count := runs.length
    let r := (wpmCandidates d.wpmMin d.wpmMax).foldl
      (fun (acc : ℚ × ℚ × ℚ) wpm =>
        let ufI := max 1 (cTrunc (d.ditFrames wpm + 0.5))
        let uf : ℚ := (ufI : ℚ)
        let subThresh := (runs.filter (fun r => (r.len : ℚ) / uf < 0.5)).length
        let subFrac := (subThresh : ℚ) / ((if count > 0 then count else 1 : Nat) : ℚ)
        let ptw := runs.foldl (fun (pt : ℚ × ℚ) r =>
          let units := (r.len : ℚ) / uf
          if units < 0.5 then pt
          else
            let weight : ℚ := if (r.len : ℚ) < 10 * uf then (r.len : ℚ) else 10 * uf
            let ew : ℚ × ℚ :=
              if r.state = 1 then (min |units - 1| |units - 3|, 1)
              else if units ≥ 6 then (|units - 7|, 0.15)
              else (min |units - 1| |units - 3|, 0.30)
            (pt.1 + weight * ew.2 * ew.1, pt.2 + weight * ew.2)) (0, 0)
        if ptw.2 ≤ 1e-9 then acc
        else
          let tol := 0.35 * uf
          let dashF := 3 * uf
          let hits := (markRuns.filter
            (fun m => |m - uf| ≤ tol ∨ |m - dashF| ≤ tol)).length
          let conf := (hits : ℚ) / (markRuns.length : ℚ)
          let score := -(ptw.1 / ptw.2) + 0.40 * conf - 1.5 * subFrac
          if score > acc.2.2 then (wpm, conf, score) else acc)
      (d.wpmMin, 0, -1e9)
    (r.1, r.2.1)

/-- `if (_unitEst < _unitMin) ...; if (_unitEst > _unitMax) ...` at the
end of `_trackStep`. -/
def clampPll (d : Morse) : Morse :=
  let d := if d.unitEst < d.unitMin then { d with unitEst := d.unitMin } else d
  if d.unitEst > d.unitMax then { d with unitEst := d.unitMax } else d

/-- `_emitSymbol`: look the accumulated pattern up (unknown → `?`),
emit a `CHAR` event and clear the pattern. -/
def emitSymbol (d : Morse) : Morse :=
  let ch := morseToChar d.symbol
  let d := pushEvent d { kind := MorseEvt.CHAR, ch := ch, wpm := 0 }
  { d with symbol := "" }

/-- `_trackStep` (LOCKED tracking): classify a mark run as dot or dash and
update the PLL, or handle letter/word/intra-element spaces, clamping the
unit estimate at the end. -/
def trackStep (d : Morse) (runState runLen : Nat) : Morse :=
  let uf := d.unitEst
  if uf ≤ 1e-6 then d
  else
    let unitsF := (runLen : ℚ) / uf
    let units : Int := max 1 (cTrunc (unitsF + 0.5))
    if runState = 1 then
      let isDash := units ≥ 2
      let d := if d.symbol.length < 7
        then { d with symbol := d.symbol.push (if isDash then '-' else '.') }
        else d
      let target : ℚ := if isDash then 3 else 1
      let obs := (runLen : ℚ) / target
      clampPll { d with unitEst := (1 - 0.12) * uf + 0.12 * obs,
                        framesSinceMark := 0 }
    else if unitsF ≥ 5.5 then
      let d := if d.symbol.length > 0 then emitSymbol d else d
      let d := pushEvent d { kind := MorseEvt.WORD_SEP, ch := ' ', wpm := 0 }
      clampPll d
    else if units ≥ 3 then
      let d := if d.symbol.length > 0 then emitSymbol d else d
      let obs := (runLen : ℚ) / 3
      clampPll { d with unitEst := (1 - 0.06) * uf + 0.06 * obs }
    else
      let obs := (runLen : ℚ) / 1
      clampPll { d with unitEst := (1 - 0.06) * uf + 0.06 * obs }

/-- The PLL set-up block at the top of `_declareLocked`
(`_unitEst = _ditFrames(wpm)`, the 0.60/1.55 PLL window, fresh symbol and
watchdog counters). -/
def lockBase (d : Morse) (wpm : ℚ) : Morse :=
  let uf := d.ditFrames wpm
  { d with
      state := MorseState.LOCKED
      lockedWpm := wpm
      unitEst := uf
      unitMin := 0.60 * uf
      unitMax := 1.55 * uf
      symbol := ""
      framesSinceMark := 0 }

/-- `_declareLocked`: set up the PLL, emit `LOCKED(wpm)`, then replay the
buffered runs through the tracker. -/
def declareLocked (d : Morse) (wpm : ℚ) : Morse :=
  let d := lockBase d wpm
  let d := pushEvent d { kind := MorseEvt.LOCKED, ch := Char.ofNat 0, wpm := wpm }
  d.runBuf.data.foldl (fun d r => trackStep d r.state r.len) d

/-- `_resetToAcquire` (the envelope/AGC state is deliberately kept). -/
def resetToAcquire (d : Morse) : Morse :=
  { d with
      state := MorseState.ACQUIRE
      framesSinceAcq := 0
      runBuf := d.runBuf.clear
      symbol := ""
      framesSinceMark := 0
      curState := 0
      curLen := 0 }

/-- `_declareLost`: one `LOST` event, then back to acquisition. -/
def declareLost (d : Morse) : Morse :=
  resetToAcquire (pushEvent d { kind := MorseEvt.LOST, ch := Char.ofNat 0, wpm := 0 })

/-- `_acquireStep`: every 6 completed runs once at least 20 mark runs are
buffered, morph-filter a copy of the run buffer, estimate the WPM and lock
when the confidence reaches 0.65. -/
def acquireStep (d : Morse) : Morse :=
  let markCount := (d.runBuf.data.filter (fun r => r.state = 1)).length
  if markCount < 20 then d
  else if d.framesSinceAcq % 6 ≠ 0 then d
  else
    let midWpm := 0.5 * (d.wpmMin + d.wpmMax)
    let coarseUf := max 1 (cTrunc (d.ditFrames midWpm + 0.5))
    let minRun := (max 2 (cTrunc (0.38 * (coarseUf : ℚ) + 0.5))).toNat
    let runs := morphFilter d.runBuf.data minRun
    let bw := estimateWpm d runs
    if bw.2 ≥ 0.65 then declareLocked d bw.1 else d

/-- Parts 1-2 of `feed()`: clear the event queue, advance the envelope
counter, run the AGC, and retrain the Schmitt thresholds every 8th
frame. -/
def feedFront (d : Morse) (mag : ℚ) : Morse :=
  let d := { d with events := [] }
  let d := { d with envFrames := d.envFrames + 1 }
  let d := updatePeak d mag
  let d := updateP20 d mag
  let d := { d with schmittFrame := d.schmittFrame + 1 }
  if d.schmittFrame % 8 = 0 then updateSchmitt d else d

/-- The completed-run hand-off inside `feed()`: buffer the run, then give
it to the acquisition scan or the LOCKED tracker. -/
def feedRunsCore (d : Morse) (out : Option RunEntry) : Morse :=
  match out with
  | none => d
  | some run =>
    let d := { d with runBuf := d.runBuf.push run }
    let d := { d with framesSinceAcq := d.framesSinceAcq + 1 }
    if d.state = MorseState.ACQUIRE then acquireStep d
    else trackStep d run.state run.len

/-- Parts 3-4 of `feed()`: slice the magnitude, record the bit, track run
lengths and hand any completed run to the acquisition or tracking logic.
Returns the sliced bit alongside the new state. -/
def feedRuns (d : Morse) (mag : ℚ) : Morse × Nat :=
  let p := schmittStep d mag
  let d := { p.1 with binaryHist := p.1.binaryHist.push p.2 }
  let q := updateRun d p.2
  (feedRunsCore q.1 q.2, p.2)

/-- Part 5 of `feed()`: the lock-loss watchdog (LOCKED state only). -/
def feedWatchdog (d : Morse) (bit : Nat) : Morse :=
  if d.state = MorseState.LOCKED then
    let d := if bit = 1 then { d with framesSinceMark := 0 }
      else { d with framesSinceMark := d.framesSinceMark + 1 }
    let lostTimeout := cTrunc (60 * d.unitEst)
    if (d.framesSinceMark : Int) > lostTimeout then declareLost d
    else if d.unitEst < d.unitMin ∨ d.unitEst > d.unitMax then declareLost d
    else d
  else d

/-- `feed(mag)`: the full per-frame entry point.  When the Schmitt slicer
is not yet valid the call returns after the AGC work with no events. -/
def feed (d : Morse) (mag : ℚ) : Morse :=
  let d1 := feedFront d mag
  if d1.schmittValid = false then d1
  else
    let p := feedRuns d1 mag
    feedWatchdog p.1 p.2

/-- `begin()`/`reset()`: the initial decoder state (`RxInit` passes
`frameRate = 36`, `wpmMin = 5`, `wpmMax = 40`, `toneBin = 22`). -/
def morseInit (frameRate wpmMin wpmMax : ℚ) (toneBin : Nat) : Morse :=
  { frameRate := frameRate, wpmMin := wpmMin, wpmMax := wpmMax,
    toneBin := toneBin,
    envFrames := 0, peakHold := 0, peakLowFrames := 0,
    p20Hist := List.replicate 256 0, p20Ring := ⟨[], 128⟩,
    p20Scale := 0, p20Total := 0,
    noiseFloor := 0, noiseFloorMin := 0,
    schmittState := 0, schmittLo := 0, schmittHi := 0,
    schmittValid := false, schmittFrame := 0,
    curState := 0, curLen := 0,
    runBuf := ⟨[], 500⟩, binaryHist := ⟨[], 400⟩,
    state := MorseState.ACQUIRE, framesSinceAcq := 0,
    lockedWpm := 0, unitEst := 0, unitMin := 0, unitMax := 0,
    symbol := "", framesSinceMark := 0, events := [] }

/-- A LOCKED decoder state used to exercise the lock-loss watchdog. -/
def c8dW : Morse :=
  { frameRate := 36, wpmMin := 5, wpmMax := 40, toneBin := 22,
    envFrames := 0, peakHold := 0, peakLowFrames := 0,
    p20Hist := List.replicate 256 0, p20Ring := ⟨[], 128⟩,
    p20Scale := -1, p20Total := 0,
    noiseFloor := 0, noiseFloorMin := 0,
    schmittState := 0, schmittLo := 0, schmittHi := 1,
    schmittValid := true, schmittFrame := 0,
    curState := 0, curLen := 0,
    runBuf := ⟨[], 500⟩, binaryHist := ⟨[], 400⟩,
    state := MorseState.LOCKED, framesSinceAcq := 0,
    lockedWpm := 12, unitEst := 1, unitMin := 0, unitMax := 2,
    symbol := "", framesSinceMark := 100, events := [] }

/-- The lock-loss condition tested by the watchdog at the end of `feed()`
(on the frame counter as just updated for `bit`): the space-frame counter
has passed `60 * _unitEst`, or the unit estimate has left
`[_unitMin, _unitMax]`. -/
def lostFire (d : Morse) (bit : Nat) : Prop :=
  ((if bit = 1 then (0 : Int) else (d.framesSinceMark : Int) + 1) >
    cTrunc (60 * d.unitEst)) ∨
  d.unitEst < d.unitMin ∨ d.unitEst > d.unitMax

/-- An event list that reports no decoded traffic before a (re)lock: it is
empty, or it opens with the `LOCKED` event. -/
def quietUntilLocked (evs : List MorseEvent) : Prop :=
  evs = [] ∨
  ∃ w tl, evs = { kind := MorseEvt.LOCKED, ch := Char.ofNat 0, wpm := w } :: tl

/-! ### Event-queue bookkeeping lemmas -/

/-- Number of `LOST` events in a list. -/
def countLost (evs : List MorseEvent) : Nat :=
  evs.countP (fun e => e.kind == MorseEvt.LOST)

theorem countLost_append (a b : List MorseEvent) :
    countLost (a ++ b) = countLost a + countLost b := by
  simp [countLost, List.countP_append]

/-- `d'` extends `d` by at most `n` non-`LOST` events, preserves the
machine state, and respects the 8-event cap. -/
def tracksOK (d d' : Morse) (n : Nat) : Prop :=
  d'.state = d.state ∧
  (∃ l, d'.events = d.events ++ l ∧ l.length ≤ n ∧ countLost l = 0) ∧
  (d.events.length ≤ 8 → d'.events.length ≤ 8)

theorem tracksOK_refl (d : Morse) (n : Nat) : tracksOK d d n :=
  ⟨rfl, ⟨[], by simp, by simp, by simp [countLost]⟩, fun h => h⟩

theorem tracksOK_mono {d d' : Morse} {n m : Nat} (h : tracksOK d d' n)
    (hnm : n ≤ m) : tracksOK d d' m :=
  ⟨h.1, by obtain ⟨l, a, b, c⟩ := h.2.1; exact ⟨l, a, le_trans b hnm, c⟩, h.2.2⟩

theorem tracksOK_trans {d1 d2 d3 : Morse} {n m : Nat}
    (h1 : tracksOK d1 d2 n) (h2 : tracksOK d2 d3 m) : tracksOK d1 d3 (n + m) := by
  obtain ⟨hs1, ⟨l1, he1, hl1, hc1⟩, hcap1⟩ := h1
  obtain ⟨hs2, ⟨l2, he2, hl2, hc2⟩, hcap2⟩ := h2
  refine ⟨hs2.trans hs1, ⟨l1 ++ l2, ?_, ?_, ?_⟩, fun h => hcap2 (hcap1 h)⟩
  · rw [he2, he1, List.append_assoc]
  · rw [List.length_append]; omega
  · rw [countLost_append, hc1, hc2]

theorem tracksOK_of_eq {d d' : Morse} (he : d'.events = d.events)
    (hs : d'.state = d.state) (n : Nat) : tracksOK d d' n :=
  ⟨hs, ⟨[], by simp [he], by simp, by simp [countLost]⟩, fun h => he ▸ h⟩

theorem pushEvent_tracksOK (d : Morse) (ev : MorseEvent)
    (h : ev.kind ≠ MorseEvt.LOST) : tracksOK d (pushEvent d ev) 1 := by
  rw [pushEvent]
  split_ifs with hlen
  · refine ⟨rfl, ⟨[ev], rfl, by simp, by simp [countLost, h]⟩, fun _ => ?_⟩
    simp only [List.length_append, List.length_singleton]
    omega
  · exact tracksOK_refl d 1

theorem clampPll_events (d : Morse) : (clampPll d).events = d.events := by
  rw [clampPll]; split_ifs <;> rfl

theorem clampPll_state (d : Morse) : (clampPll d).state = d.state := by
  rw [clampPll]; split_ifs <;> rfl

theorem clampPll_tracksOK (d : Morse) (n : Nat) : tracksOK d (clampPll d) n :=
  tracksOK_of_eq (clampPll_events d) (clampPll_state d) n

theorem emitSymbol_tracksOK (d : Morse) : tracksOK d (emitSymbol d) 1 := by
  have h := pushEvent_tracksOK d
    { kind := MorseEvt.CHAR, ch := morseToChar d.symbol, wpm := 0 } (by simp)
  rw [emitSymbol]
  exact ⟨h.1, h.2.1, h.2.2⟩

theorem trackStep_tracksOK (d : Morse) (a b : Nat) :
    tracksOK d (trackStep d a b) 2 := by
  rw [trackStep]
  by_cases h1 : d.unitEst ≤ 1e-6
  · rw [if_pos h1]; exact tracksOK_refl d 2
  rw [if_neg h1]
  by_cases hm : a = 1
  · simp only [if_pos hm]
    refine tracksOK_of_eq ?_ ?_ 2
    · rw [clampPll_events]
      split_ifs <;> rfl
    · rw [clampPll_state]
      split_ifs <;> rfl
  simp only [if_neg hm]
  by_cases hw : ((b : ℚ) / d.unitEst) ≥ 5.5
  · simp only [if_pos hw]
    have hA : tracksOK d (if d.symbol.length > 0 then emitSymbol d else d) 1 := by
      split_ifs with hs
      · exact emitSymbol_tracksOK d
      · exact tracksOK_refl d 1
    have hB := pushEvent_tracksOK (if d.symbol.length > 0 then emitSymbol d else d)
      { kind := MorseEvt.WORD_SEP, ch := ' ', wpm := 0 } (by simp)
    have hC := clampPll_tracksOK (pushEvent
      (if d.symbol.length > 0 then emitSymbol d else d)
      { kind := MorseEvt.WORD_SEP, ch := ' ', wpm := 0 }) 0
    exact tracksOK_mono (tracksOK_trans (tracksOK_trans hA hB) hC) (by omega)
  simp only [if_neg hw]
  by_cases h3 : (max 1 (cTrunc ((b : ℚ) / d.unitEst + 0.5))) ≥ 3
  · simp only [if_pos h3]
    have hA : tracksOK d (if d.symbol.length > 0 then emitSymbol d else d) 1 := by
      split_ifs with hs
      · exact emitSymbol_tracksOK d
      · exact tracksOK_refl d 1
    refine tracksOK_mono (tracksOK_trans hA (tracksOK_of_eq ?_ ?_ 0)) (by omega)
    · rw [clampPll_events]
    · rw [clampPll_state]
  · simp only [if_neg h3]
    refine tracksOK_of_eq ?_ ?_ 2
    · rw [clampPll_events]
    · rw [clampPll_state]

theorem foldTrack_tracksOK (runs : List RunEntry) :
    ∀ d : Morse, tracksOK d (runs.foldl (fun d r => trackStep d r.state r.len) d)
      (2 * runs.length) := by
  induction runs with
  | nil => intro d; exact tracksOK_refl d 0
  | cons r rs ih =>
    intro d
    simp only [List.foldl_cons]
    refine tracksOK_mono
      (tracksOK_trans (trackStep_tracksOK d r.state r.len) (ih _)) ?_
    simp [List.length_cons]
    omega


/-! ### Field-preservation lemmas for the feed pipeline -/

theorem updatePeak_events (d : Morse) (mag : ℚ) :
    (updatePeak d mag).events = d.events := by
  rw [updatePeak]; split_ifs <;> rfl

theorem updatePeak_state (d : Morse) (mag : ℚ) :
    (updatePeak d mag).state = d.state := by
  rw [updatePeak]; split_ifs <;> rfl

theorem updatePeak_schmittValid (d : Morse) (mag : ℚ) :
    (updatePeak d mag).schmittValid = d.schmittValid := by
  rw [updatePeak]; split_ifs <;> rfl

theorem p20Seed_events (d : Morse) (mag : ℚ) :
    (p20Seed d mag).events = d.events := by
  rw [p20Seed]; split_ifs <;> rfl

theorem p20Seed_state (d : Morse) (mag : ℚ) :
    (p20Seed d mag).state = d.state := by
  rw [p20Seed]; split_ifs <;> rfl

theorem p20Seed_schmittValid (d : Morse) (mag : ℚ) :
    (p20Seed d mag).schmittValid = d.schmittValid := by
  rw [p20Seed]; split_ifs <;> rfl

theorem p20Evict_events (d : Morse) :
    (p20Evict d).events = d.events := by
  rw [p20Evict]; split_ifs <;> rfl

theorem p20Evict_state (d : Morse) :
    (p20Evict d).state = d.state := by
  rw [p20Evict]; split_ifs <;> rfl

theorem p20Evict_schmittValid (d : Morse) :
    (p20Evict d).schmittValid = d.schmittValid := by
  rw [p20Evict]; split_ifs <;> rfl

theorem p20Record_events (d : Morse) (bucket : Nat) :
    (p20Record d bucket).events = d.events := by
  rw [p20Record]; split_ifs <;> rfl

theorem p20Record_state (d : Morse) (bucket : Nat) :
    (p20Record d bucket).state = d.state := by
  rw [p20Record]; split_ifs <;> rfl

theorem p20Record_schmittValid (d : Morse) (bucket : Nat) :
    (p20Record d bucket).schmittValid = d.schmittValid := by
  rw [p20Record]; split_ifs <;> rfl

theorem p20Floor_events (d : Morse) :
    (p20Floor d).events = d.events := by
  rw [p20Floor]; split_ifs <;> rfl

theorem p20Floor_state (d : Morse) :
    (p20Floor d).state = d.state := by
  rw [p20Floor]; split_ifs <;> rfl

theorem p20Floor_schmittValid (d : Morse) :
    (p20Floor d).schmittValid = d.schmittValid := by
  rw [p20Floor]; split_ifs <;> rfl

theorem updateP20_events (d : Morse) (mag : ℚ) :
    (updateP20 d mag).events = d.events := by
  rw [updateP20]
  split_ifs <;>
    simp [p20Floor_events, p20Record_events, p20Evict_events, p20Seed_events]

theorem updateP20_state (d : Morse) (mag : ℚ) :
    (updateP20 d mag).state = d.state := by
  rw [updateP20]
  split_ifs <;>
    simp [p20Floor_state, p20Record_state, p20Evict_state, p20Seed_state]

theorem updateP20_schmittValid (d : Morse) (mag : ℚ) :
    (updateP20 d mag).schmittValid = d.schmittValid := by
  rw [updateP20]
  split_ifs <;>
    simp [p20Floor_schmittValid, p20Record_schmittValid, p20Evict_schmittValid,
      p20Seed_schmittValid]

theorem updateSchmitt_events (d : Morse) :
    (updateSchmitt d).events = d.events := by
  rw [updateSchmitt]; split_ifs <;> rfl

theorem updateSchmitt_state (d : Morse) :
    (updateSchmitt d).state = d.state := by
  rw [updateSchmitt]; split_ifs <;> rfl

theorem feedFront_events (d : Morse) (mag : ℚ) :
    (feedFront d mag).events = [] := by
  rw [feedFront]
  split_ifs <;>
    simp [updateSchmitt_events, updateP20_events, updatePeak_events]

theorem feedFront_state (d : Morse) (mag : ℚ) :
    (feedFront d mag).state = d.state := by
  rw [feedFront]
  split_ifs <;>
    simp [updateSchmitt_state, updateP20_state, updatePeak_state]

theorem schmittStep_events (d : Morse) (v : ℚ) :
    (schmittStep d v).1.events = d.events := rfl

theorem schmittStep_state (d : Morse) (v : ℚ) :
    (schmittStep d v).1.state = d.state := rfl

theorem updateRun_events (d : Morse) (bit : Nat) :
    (updateRun d bit).1.events = d.events := by
  rw [updateRun]; split_ifs <;> rfl

theorem updateRun_state (d : Morse) (bit : Nat) :
    (updateRun d bit).1.state = d.state := by
  rw [updateRun]; split_ifs <;> rfl

theorem pushEvent_countLost (d : Morse) (ev : MorseEvent)
    (h : ev.kind ≠ MorseEvt.LOST) :
    countLost (pushEvent d ev).events = countLost d.events := by
  rw [pushEvent]
  split_ifs with hlen
  · simp [countLost_append, countLost, h]
  · rfl


/-! ### declareLocked / declareLost / acquireStep bookkeeping -/

theorem pushEvent_state (d : Morse) (ev : MorseEvent) :
    (pushEvent d ev).state = d.state := by
  rw [pushEvent]; split_ifs <;> rfl

theorem pushEvent_events (d : Morse) (ev : MorseEvent) :
    (pushEvent d ev).events =
      if d.events.length < 8 then d.events ++ [ev] else d.events := by
  rw [pushEvent]; split_ifs <;> rfl

theorem pushEvent_cap (d : Morse) (ev : MorseEvent)
    (h : d.events.length ≤ 8) : (pushEvent d ev).events.length ≤ 8 := by
  rw [pushEvent]
  split_ifs with hlen
  · simp only [List.length_append, List.length_singleton]; omega
  · exact h

/-- The shape of `pushEvent` followed by the run-replay fold of
`_declareLocked`. -/
theorem pushFoldFacts (X : Morse) (ev : MorseEvent) (runs : List RunEntry) :
    (runs.foldl (fun d r => trackStep d r.state r.len) (pushEvent X ev)).state
        = X.state ∧
    (∃ l, (runs.foldl (fun d r => trackStep d r.state r.len)
          (pushEvent X ev)).events
        = (if X.events.length < 8 then X.events ++ [ev] else X.events) ++ l ∧
      countLost l = 0) ∧
    (X.events.length ≤ 8 →
      (runs.foldl (fun d r => trackStep d r.state r.len)
          (pushEvent X ev)).events.length ≤ 8) := by
  have h := foldTrack_tracksOK runs (pushEvent X ev)
  refine ⟨h.1.trans (pushEvent_state X ev), ?_,
    fun hc => h.2.2 (pushEvent_cap X ev hc)⟩
  obtain ⟨l, hl, -, hcl⟩ := h.2.1
  exact ⟨l, by rw [hl, pushEvent_events], hcl⟩

theorem lockBase_events (d : Morse) (w : ℚ) :
    (lockBase d w).events = d.events := rfl

theorem lockBase_state (d : Morse) (w : ℚ) :
    (lockBase d w).state = MorseState.LOCKED := rfl

theorem declareLocked_state (d : Morse) (w : ℚ) :
    (declareLocked d w).state = MorseState.LOCKED := by
  rw [declareLocked]
  exact (pushFoldFacts _ _ _).1.trans rfl

theorem declareLocked_countLost (d : Morse) (w : ℚ) :
    countLost (declareLocked d w).events = countLost d.events := by
  show countLost (((pushEvent (lockBase d w)
      { kind := MorseEvt.LOCKED, ch := Char.ofNat 0, wpm := w }).runBuf.data).foldl
      (fun d r => trackStep d r.state r.len)
      (pushEvent (lockBase d w)
        { kind := MorseEvt.LOCKED, ch := Char.ofNat 0, wpm := w })).events
    = countLost d.events
  obtain ⟨l, hl, hcl⟩ := (pushFoldFacts (lockBase d w)
    { kind := MorseEvt.LOCKED, ch := Char.ofNat 0, wpm := w }
    (pushEvent (lockBase d w)
      { kind := MorseEvt.LOCKED, ch := Char.ofNat 0, wpm := w }).runBuf.data).2.1
  rw [hl, countLost_append, hcl, lockBase_events]
  split_ifs with hlen
  · rw [countLost_append]
    simp [countLost]
  · rfl

theorem declareLocked_cap (d : Morse) (w : ℚ)
    (h : d.events.length ≤ 8) : (declareLocked d w).events.length ≤ 8 := by
  rw [declareLocked]
  exact (pushFoldFacts _ _ _).2.2 h

theorem declareLocked_head (d : Morse) (w : ℚ) (he : d.events = []) :
    ∃ tl, (declareLocked d w).events =
      { kind := MorseEvt.LOCKED, ch := Char.ofNat 0, wpm := w } :: tl := by
  show ∃ tl, (((pushEvent (lockBase d w)
      { kind := MorseEvt.LOCKED, ch := Char.ofNat 0, wpm := w }).runBuf.data).foldl
      (fun d r => trackStep d r.state r.len)
      (pushEvent (lockBase d w)
        { kind := MorseEvt.LOCKED, ch := Char.ofNat 0, wpm := w })).events
    = { kind := MorseEvt.LOCKED, ch := Char.ofNat 0, wpm := w } :: tl
  obtain ⟨l, hl, -⟩ := (pushFoldFacts (lockBase d w)
    { kind := MorseEvt.LOCKED, ch := Char.ofNat 0, wpm := w }
    (pushEvent (lockBase d w)
      { kind := MorseEvt.LOCKED, ch := Char.ofNat 0, wpm := w }).runBuf.data).2.1
  refine ⟨l, ?_⟩
  rw [hl, lockBase_events]
  simp [he]

theorem resetToAcquire_events (d : Morse) :
    (resetToAcquire d).events = d.events := rfl

theorem resetToAcquire_state (d : Morse) :
    (resetToAcquire d).state = MorseState.ACQUIRE := rfl

theorem declareLost_state (d : Morse) :
    (declareLost d).state = MorseState.ACQUIRE := rfl

theorem declareLost_events (d : Morse) :
    (declareLost d).events =
      if d.events.length < 8
      then d.events ++ [{ kind := MorseEvt.LOST, ch := Char.ofNat 0, wpm := 0 }]
      else d.events := by
  rw [declareLost]
  exact (resetToAcquire_events _).trans (pushEvent_events _ _)

theorem declareLost_countLost (d : Morse) (hlen : d.events.length < 8) :
    countLost (declareLost d).events = countLost d.events + 1 := by
  rw [declareLost_events, if_pos hlen, countLost_append]
  simp [countLost]

theorem declareLost_countLost_le (d : Morse) :
    countLost (declareLost d).events ≤ countLost d.events + 1 := by
  rw [declareLost_events]
  split_ifs with hlen
  · rw [countLost_append]
    simp [countLost]
  · omega

theorem declareLost_cap (d : Morse) (h : d.events.length ≤ 8) :
    (declareLost d).events.length ≤ 8 := by
  rw [declareLost_events]
  split_ifs with hlen
  · simp only [List.length_append, List.length_singleton]; omega
  · exact h

theorem declareLost_extends (d : Morse) :
    ∃ l, (declareLost d).events = d.events ++ l := by
  rw [declareLost_events]
  split_ifs
  · exact ⟨_, rfl⟩
  · exact ⟨[], by simp⟩

/-- `_acquireStep` either leaves the decoder unchanged or declares a
lock. -/
theorem acquireStep_cases (d : Morse) :
    acquireStep d = d ∨ ∃ w, acquireStep d = declareLocked d w := by
  rw [acquireStep]
  split_ifs
  · exact Or.inl rfl
  · exact Or.inl rfl
  · dsimp only
    split_ifs
    · exact Or.inr ⟨_, rfl⟩
    · exact Or.inl rfl


/-! ### Behaviour of feedRuns / feedWatchdog / feed -/

theorem feedRunsCore_cases (d : Morse) (out : Option RunEntry) :
    feedRunsCore d out = d ∨
    (∃ d0 : Morse, d0.events = d.events ∧ d0.state = d.state ∧
      ((d.state = MorseState.ACQUIRE ∧ feedRunsCore d out = acquireStep d0) ∨
       (d.state ≠ MorseState.ACQUIRE ∧
         ∃ a b, feedRunsCore d out = trackStep d0 a b))) := by
  cases out with
  | none => exact Or.inl rfl
  | some run =>
    have hred : feedRunsCore d (some run) =
        (if d.state = MorseState.ACQUIRE
          then acquireStep { d with runBuf := d.runBuf.push run, framesSinceAcq := d.framesSinceAcq + 1 }
          else trackStep { d with runBuf := d.runBuf.push run, framesSinceAcq := d.framesSinceAcq + 1 } run.state run.len) := rfl
    rw [hred]
    split_ifs with hs
    · exact Or.inr ⟨{ d with runBuf := d.runBuf.push run, framesSinceAcq := d.framesSinceAcq + 1 }, rfl, rfl, Or.inl ⟨hs, rfl⟩⟩
    · exact Or.inr ⟨{ d with runBuf := d.runBuf.push run, framesSinceAcq := d.framesSinceAcq + 1 }, rfl, rfl, Or.inr ⟨hs, run.state, run.len, rfl⟩⟩

theorem feedRunsCore_behav (dOrig d : Morse) (out : Option RunEntry)
    (he : d.events = dOrig.events) (hs : d.state = dOrig.state) :
    ∃ d0 : Morse, d0.events = dOrig.events ∧ d0.state = dOrig.state ∧
      (feedRunsCore d out = d0 ∨
       (dOrig.state = MorseState.ACQUIRE ∧
         feedRunsCore d out = acquireStep d0) ∨
       (dOrig.state ≠ MorseState.ACQUIRE ∧
         ∃ a b, feedRunsCore d out = trackStep d0 a b)) := by
  rcases feedRunsCore_cases d out with heq | ⟨d0, he0, hs0, hin⟩
  · exact ⟨d, he, hs, Or.inl heq⟩
  · refine ⟨d0, he0.trans he, hs0.trans hs, ?_⟩
    rcases hin with ⟨hacq, heq⟩ | ⟨hnacq, a, b, heq⟩
    · exact Or.inr (Or.inl ⟨hs.symm.trans hacq, heq⟩)
    · exact Or.inr (Or.inr ⟨fun hc => hnacq (hs.trans hc), a, b, heq⟩)

theorem feedRuns_behav (d : Morse) (mag : ℚ) :
    ∃ d0 : Morse, d0.events = d.events ∧ d0.state = d.state ∧
      ((feedRuns d mag).1 = d0 ∨
       (d.state = MorseState.ACQUIRE ∧
         (feedRuns d mag).1 = acquireStep d0) ∨
       (d.state ≠ MorseState.ACQUIRE ∧
         ∃ a b, (feedRuns d mag).1 = trackStep d0 a b)) :=
  feedRunsCore_behav d
    (updateRun { (schmittStep d mag).1 with
        binaryHist := (schmittStep d mag).1.binaryHist.push (schmittStep d mag).2 }
      (schmittStep d mag).2).1
    (updateRun { (schmittStep d mag).1 with
        binaryHist := (schmittStep d mag).1.binaryHist.push (schmittStep d mag).2 }
      (schmittStep d mag).2).2
    ((updateRun_events _ _).trans rfl)
    ((updateRun_state _ _).trans rfl)

theorem feedRuns_countLost (d : Morse) (mag : ℚ) :
    countLost (feedRuns d mag).1.events = countLost d.events ∧
    (d.events.length ≤ 8 → (feedRuns d mag).1.events.length ≤ 8) := by
  obtain ⟨d0, he0, hs0, hcase⟩ := feedRuns_behav d mag
  rcases hcase with heq | ⟨-, heq⟩ | ⟨-, a, b, heq⟩
  · exact ⟨by rw [heq, he0], fun h => by rw [heq, he0]; exact h⟩
  · rcases acquireStep_cases d0 with haq | ⟨w, haq⟩
    · exact ⟨by rw [heq, haq, he0], fun h => by rw [heq, haq, he0]; exact h⟩
    · refine ⟨by rw [heq, haq, declareLocked_countLost, he0], fun h => ?_⟩
      rw [heq, haq]
      exact declareLocked_cap d0 w (by rw [he0]; exact h)
  · have ht := trackStep_tracksOK d0 a b
    obtain ⟨l, hl, -, hcl⟩ := ht.2.1
    refine ⟨by rw [heq, hl, countLost_append, hcl, he0]; omega, fun h => ?_⟩
    rw [heq]
    exact ht.2.2 (by rw [he0]; exact h)

theorem feedRuns_locked (d : Morse) (mag : ℚ)
    (h : d.state = MorseState.LOCKED) :
    (feedRuns d mag).1.state = MorseState.LOCKED ∧
    ∃ l, (feedRuns d mag).1.events = d.events ++ l ∧ l.length ≤ 2 ∧
      countLost l = 0 := by
  obtain ⟨d0, he0, hs0, hcase⟩ := feedRuns_behav d mag
  rcases hcase with heq | ⟨hacq, -⟩ | ⟨-, a, b, heq⟩
  · exact ⟨by rw [heq, hs0, h], ⟨[], by rw [heq, he0]; simp, by simp, rfl⟩⟩
  · exact absurd (hacq.symm.trans h) (by simp)
  · have ht := trackStep_tracksOK d0 a b
    obtain ⟨l, hl, hlen, hcl⟩ := ht.2.1
    exact ⟨by rw [heq, ht.1, hs0, h], ⟨l, by rw [heq, hl, he0], hlen, hcl⟩⟩

theorem feedRuns_acquire (d : Morse) (mag : ℚ)
    (h : d.state = MorseState.ACQUIRE) (he : d.events = []) :
    ((feedRuns d mag).1.state = MorseState.ACQUIRE ∧
      (feedRuns d mag).1.events = []) ∨
    ((feedRuns d mag).1.state = MorseState.LOCKED ∧
      ∃ w tl, (feedRuns d mag).1.events =
        { kind := MorseEvt.LOCKED, ch := Char.ofNat 0, wpm := w } :: tl) := by
  obtain ⟨d0, he0, hs0, hcase⟩ := feedRuns_behav d mag
  rcases hcase with heq | ⟨-, heq⟩ | ⟨hnacq, a, b, heq⟩
  · exact Or.inl ⟨by rw [heq, hs0, h], by rw [heq, he0, he]⟩
  · rcases acquireStep_cases d0 with haq | ⟨w, haq⟩
    · exact Or.inl ⟨by rw [heq, haq, hs0, h], by rw [heq, haq, he0, he]⟩
    · refine Or.inr ⟨by rw [heq, haq, declareLocked_state], ?_⟩
      obtain ⟨tl, htl⟩ := declareLocked_head d0 w (he0.trans he)
      exact ⟨w, tl, by rw [heq, haq, htl]⟩
  · exact absurd h hnacq

theorem feedWatchdog_fire (d : Morse) (bit : Nat)
    (hst : d.state = MorseState.LOCKED) (hf : lostFire d bit) :
    feedWatchdog d bit =
      declareLost (if bit = 1 then { d with framesSinceMark := 0 }
        else { d with framesSinceMark := d.framesSinceMark + 1 }) := by
  rw [lostFire] at hf
  rw [feedWatchdog, if_pos hst]
  by_cases hb : bit = 1
  · rw [if_pos hb] at hf ⊢
    dsimp only
    split_ifs with h1 h2
    · rfl
    · rfl
    · exfalso
      rcases hf with hf | hf
      · exact h1 (by simpa using hf)
      · exact h2 hf
  · rw [if_neg hb] at hf ⊢
    dsimp only
    split_ifs with h1 h2
    · rfl
    · rfl
    · exfalso
      rcases hf with hf | hf
      · exact h1 (by push_cast; simpa using hf)
      · exact h2 hf

theorem feedWatchdog_nofire (d : Morse) (bit : Nat)
    (hst : d.state = MorseState.LOCKED) (hnf : ¬ lostFire d bit) :
    feedWatchdog d bit =
      (if bit = 1 then { d with framesSinceMark := 0 }
       else { d with framesSinceMark := d.framesSinceMark + 1 }) := by
  rw [lostFire] at hnf
  rw [feedWatchdog, if_pos hst]
  by_cases hb : bit = 1
  · rw [if_pos hb] at hnf ⊢
    dsimp only
    split_ifs with h1 h2
    · exact absurd (Or.inl (by simpa using h1)) hnf
    · exact absurd (Or.inr h2) hnf
    · rfl
  · rw [if_neg hb] at hnf ⊢
    dsimp only
    split_ifs with h1 h2
    · exact absurd (Or.inl (by push_cast at h1; simpa using h1)) hnf
    · exact absurd (Or.inr h2) hnf
    · rfl

theorem feedWatchdog_cap (d : Morse) (bit : Nat)
    (h : d.events.length ≤ 8) : (feedWatchdog d bit).events.length ≤ 8 := by
  by_cases hst : d.state = MorseState.LOCKED
  · by_cases hf : lostFire d bit
    · rw [feedWatchdog_fire d bit hst hf]
      by_cases hb : bit = 1
      · rw [if_pos hb]
        exact declareLost_cap { d with framesSinceMark := 0 } h
      · rw [if_neg hb]
        exact declareLost_cap { d with framesSinceMark := d.framesSinceMark + 1 } h
    · rw [feedWatchdog_nofire d bit hst hf]
      by_cases hb : bit = 1
      · rw [if_pos hb]; exact h
      · rw [if_neg hb]; exact h
  · rw [feedWatchdog, if_neg hst]; exact h

theorem feedWatchdog_countLost_le (d : Morse) (bit : Nat) :
    countLost (feedWatchdog d bit).events ≤ countLost d.events + 1 := by
  by_cases hst : d.state = MorseState.LOCKED
  · by_cases hf : lostFire d bit
    · rw [feedWatchdog_fire d bit hst hf]
      by_cases hb : bit = 1
      · rw [if_pos hb]
        exact declareLost_countLost_le { d with framesSinceMark := 0 }
      · rw [if_neg hb]
        exact declareLost_countLost_le { d with framesSinceMark := d.framesSinceMark + 1 }
    · rw [feedWatchdog_nofire d bit hst hf]
      by_cases hb : bit = 1
      · rw [if_pos hb]; exact Nat.le_succ _
      · rw [if_neg hb]; exact Nat.le_succ _
  · rw [feedWatchdog, if_neg hst]; omega

theorem feedWatchdog_extends (d : Morse) (bit : Nat) :
    ∃ l, (feedWatchdog d bit).events = d.events ++ l := by
  by_cases hst : d.state = MorseState.LOCKED
  · by_cases hf : lostFire d bit
    · rw [feedWatchdog_fire d bit hst hf]
      by_cases hb : bit = 1
      · rw [if_pos hb]
        exact declareLost_extends { d with framesSinceMark := 0 }
      · rw [if_neg hb]
        exact declareLost_extends { d with framesSinceMark := d.framesSinceMark + 1 }
    · rw [feedWatchdog_nofire d bit hst hf]
      by_cases hb : bit = 1
      · rw [if_pos hb]; exact ⟨[], by simp⟩
      · rw [if_neg hb]; exact ⟨[], by simp⟩
  · rw [feedWatchdog, if_neg hst]; exact ⟨[], by simp⟩

theorem feed_cases (d : Morse) (mag : ℚ) :
    (feed d mag = feedFront d mag ∧
      (feedFront d mag).schmittValid = false) ∨
    ((feedFront d mag).schmittValid = true ∧
      feed d mag = feedWatchdog (feedRuns (feedFront d mag) mag).1
        (feedRuns (feedFront d mag) mag).2) := by
  rw [feed]
  dsimp only
  split_ifs with h
  · exact Or.inl ⟨rfl, h⟩
  · exact Or.inr ⟨by simpa using h, rfl⟩


/-- C9 — Morse event interface is total and bounded: every `feed` call
reports at most `MAX_EVENTS = 8` events; `_pushEvent` silently drops an
event once 8 are stored; and `event(i)` returns the default (`NONE`)
event for every index outside `[0, _evtCount)`. -/
theorem c9_morse_events_bounded :
    (∀ (d : Morse) (mag : ℚ), (feed d mag).evtCount ≤ 8) ∧
    (∀ (d : Morse) (ev : MorseEvent), 8 ≤ d.events.length →
      pushEvent d ev = d) ∧
    (∀ (d : Morse) (i : Int), i < 0 ∨ (d.evtCount : Int) ≤ i →
      event d i = {}) := by
  refine ⟨fun d mag => ?_, fun d ev h => ?_, fun d i h => ?_⟩
  · rw [Morse.evtCount]
    rcases feed_cases d mag with ⟨heq, -⟩ | ⟨-, heq⟩
    · rw [heq, feedFront_events]; simp
    · rw [heq]
      exact feedWatchdog_cap _ _
        ((feedRuns_countLost _ _).2 (by rw [feedFront_events]; simp))
  · rw [pushEvent, if_neg (by omega)]
  · rw [event, if_pos h]

theorem c9_morse_events_bounded_witness :
    (feed (morseInit 36 5 40 22) 0).evtCount ≤ 8 ∧
    pushEvent { morseInit 36 5 40 22 with events := List.replicate 8 {} } {} = { morseInit 36 5 40 22 with events := List.replicate 8 {} } ∧
    event (morseInit 36 5 40 22) 3 = {} :=
  ⟨c9_morse_events_bounded.1 (morseInit 36 5 40 22) 0,
   c9_morse_events_bounded.2.1 _ {} (by simp),
   c9_morse_events_bounded.2.2 _ 3
     (Or.inr (by norm_num [Morse.evtCount, morseInit]))⟩

/-- C8 — Morse loss: each `feed` call produces at most one `LOST` event;
from the LOCKED state a call produces exactly one `LOST` (and lands in
ACQUIRE) precisely when the slicer is trained and the watchdog condition
fires — the space-frame counter passing `60 * _unitEst`, or `_unitEst`
leaving `[_unitMin, _unitMax]`; and from ACQUIRE with an empty queue a
call reports no `CHAR`/`WORD_SEP`/`LOST` traffic before a new `LOCKED`
event. -/
theorem c8_morse_loss :
    (∀ (d : Morse) (mag : ℚ), countLost (feed d mag).events ≤ 1) ∧
    (∀ (d : Morse) (mag : ℚ), d.state = MorseState.LOCKED →
      (((feedFront d mag).schmittValid = true ∧
          lostFire (feedRuns (feedFront d mag) mag).1
            (feedRuns (feedFront d mag) mag).2) →
        countLost (feed d mag).events = 1 ∧
          (feed d mag).state = MorseState.ACQUIRE) ∧
      (countLost (feed d mag).events = 1 →
        (feedFront d mag).schmittValid = true ∧
        lostFire (feedRuns (feedFront d mag) mag).1
          (feedRuns (feedFront d mag) mag).2 ∧
        (feed d mag).state = MorseState.ACQUIRE)) ∧
    (∀ (d : Morse) (mag : ℚ),
      d.state = MorseState.ACQUIRE → d.events = [] →
      quietUntilLocked (feed d mag).events) := by
  refine ⟨fun d mag => ?_, fun d mag hst => ?_, fun d mag hst he => ?_⟩
  · rcases feed_cases d mag with ⟨heq, -⟩ | ⟨-, heq⟩
    · rw [heq, feedFront_events]
      simp [countLost]
    · rw [heq]
      have h1 := feedWatchdog_countLost_le (feedRuns (feedFront d mag) mag).1
        (feedRuns (feedFront d mag) mag).2
      have h2 := (feedRuns_countLost (feedFront d mag) mag).1
      rw [feedFront_events] at h2
      have h0 : countLost ([] : List MorseEvent) = 0 := rfl
      rw [h0] at h2
      omega
  · have hffs : (feedFront d mag).state = MorseState.LOCKED :=
      (feedFront_state d mag).trans hst
    rcases feed_cases d mag with ⟨heq, hv⟩ | ⟨hvt, heq⟩
    · constructor
      · rintro ⟨hvt, -⟩
        rw [hvt] at hv
        exact absurd hv (by simp)
      · intro hc1
        rw [heq, feedFront_events] at hc1
        simp [countLost] at hc1
    · obtain ⟨hstL, l, hev, hlen, hcl⟩ := feedRuns_locked (feedFront d mag) mag hffs
      rw [feedFront_events] at hev
      have hevl : (feedRuns (feedFront d mag) mag).1.events = l := by
        simpa using hev
      have hlen8 : (feedRuns (feedFront d mag) mag).1.events.length < 8 := by
        rw [hevl]; omega
      have hcl0 : countLost (feedRuns (feedFront d mag) mag).1.events = 0 := by
        rw [hevl]; exact hcl
      by_cases hf : lostFire (feedRuns (feedFront d mag) mag).1
          (feedRuns (feedFront d mag) mag).2
      · have hfw := feedWatchdog_fire _ _ hstL hf
        have hstate : (feed d mag).state = MorseState.ACQUIRE := by
          rw [heq, hfw]; exact declareLost_state _
        have hcnt : countLost (feed d mag).events = 1 := by
          rw [heq, hfw]
          by_cases hb : (feedRuns (feedFront d mag) mag).2 = 1
          · rw [if_pos hb,
              declareLost_countLost { (feedRuns (feedFront d mag) mag).1 with framesSinceMark := 0 } hlen8]
            show countLost (feedRuns (feedFront d mag) mag).1.events + 1 = 1
            rw [hcl0]
          · rw [if_neg hb,
              declareLost_countLost { (feedRuns (feedFront d mag) mag).1 with framesSinceMark := (feedRuns (feedFront d mag) mag).1.framesSinceMark + 1 } hlen8]
            show countLost (feedRuns (feedFront d mag) mag).1.events + 1 = 1
            rw [hcl0]
        exact ⟨fun _ => ⟨hcnt, hstate⟩, fun _ => ⟨hvt, hf, hstate⟩⟩
      · have hfw := feedWatchdog_nofire _ _ hstL hf
        have hcnt0 : countLost (feed d mag).events = 0 := by
          rw [heq, hfw]
          by_cases hb : (feedRuns (feedFront d mag) mag).2 = 1
          · rw [if_pos hb]; exact hcl0
          · rw [if_neg hb]; exact hcl0
        constructor
        · rintro ⟨-, hf'⟩
          exact absurd hf' hf
        · intro hc1
          rw [hcnt0] at hc1
          exact absurd hc1 (by simp)
  · rw [quietUntilLocked]
    rcases feed_cases d mag with ⟨heq, -⟩ | ⟨-, heq⟩
    · rw [heq, feedFront_events]
      exact Or.inl rfl
    · have hffs : (feedFront d mag).state = MorseState.ACQUIRE :=
        (feedFront_state d mag).trans hst
      rcases feedRuns_acquire (feedFront d mag) mag hffs (feedFront_events d mag)
        with ⟨hs2, he2⟩ | ⟨hs2, w, tl, he2⟩
      · have hnl : ¬((feedRuns (feedFront d mag) mag).1.state
            = MorseState.LOCKED) := by rw [hs2]; simp
        rw [heq, feedWatchdog, if_neg hnl]
        exact Or.inl he2
      · obtain ⟨l', hl'⟩ := feedWatchdog_extends
          (feedRuns (feedFront d mag) mag).1 (feedRuns (feedFront d mag) mag).2
        right
        exact ⟨w, tl ++ l', by rw [heq, hl', he2]; simp⟩

theorem c8_morse_loss_witness :
    countLost (feed c8dW 0).events = 1 ∧
    (feed c8dW 0).state = MorseState.ACQUIRE ∧
    quietUntilLocked (feed (morseInit 36 5 40 22) 0).events := by
  have hv : (feedFront c8dW 0).schmittValid = true := by
    norm_num [feedFront, updatePeak, updateP20, p20Seed, updateSchmitt, c8dW]
  have hf : lostFire (feedRuns (feedFront c8dW 0) 0).1
      (feedRuns (feedFront c8dW 0) 0).2 := by
    norm_num [feedRuns, feedRunsCore, schmittStep, updateRun, feedFront,
      updatePeak, updateP20, p20Seed, updateSchmitt, c8dW, lostFire, cTrunc,
      MorsRing.push]
  obtain ⟨h1, h2⟩ := (c8_morse_loss.2.1 c8dW 0 rfl).1 ⟨hv, hf⟩
  exact ⟨h1, h2, c8_morse_loss.2.2 (morseInit 36 5 40 22) 0 rfl rfl⟩

end OOKFW
